import Mathlib

/-!
Verification development for the LaTeX theorem-parsing and indexing engine
(`TheoremIndexerTool`, `GetProofTool`, `TheoremExtractorTool`).

Strings are modelled as `List Char`; the JavaScript regular-expression scans
are embedded as explicit character-level scanning functions with the same
match semantics (leftmost match, continue after each match, case-insensitive
where the source regex carries the `i` flag).  JavaScript numbers that only
ever hold small exact values are modelled as `Nat`; the one fractional score
computation is modelled as `Rat`.  `AbortSignal.aborted` is modelled as a
constant `Bool` polled at each match, with cancellation surfaced as
`Except.error`, mirroring the thrown `Error`.
-/

namespace Spec2Proof

abbrev LStr := List Char

/-- `s.toLowerCase()` on a character list. -/
def lcStr (s : LStr) : LStr := s.map Char.toLower

/-- Case-insensitive "text starts with pattern" (used for the `i`-flagged regexes). -/
def startsWithCI : LStr → LStr → Bool
  | [], _ => true
  | _ :: _, [] => false
  | p :: ps, t :: ts => (p.toLower == t.toLower) && startsWithCI ps ts

/-- Case-sensitive "text starts with pattern". -/
def startsWithL : LStr → LStr → Bool
  | [], _ => true
  | _ :: _, [] => false
  | p :: ps, t :: ts => (p == t) && startsWithL ps ts

/-- JavaScript `\s` on the characters relevant here. -/
def isWsChar (c : Char) : Bool :=
  c == ' ' || c == '\t' || c == '\n' || c == '\r' || c == '\x0b' || c == '\x0c'

/-- JavaScript `String.prototype.trim`. -/
def jsTrim (s : LStr) : LStr :=
  ((s.dropWhile isWsChar).reverse.dropWhile isWsChar).reverse

/-- `content.substring(0, index).split('\n').length`: 1-based line number of an offset. -/
def getLineNumber (content : LStr) (index : Nat) : Nat :=
  ((content.take index).filter (· == '\n')).length + 1

/-- `content.substring(a, b)` for `a ≤ b` (the only way it is called here). -/
def sliceStr (content : LStr) (a b : Nat) : LStr :=
  (content.take b).drop a

/-- `haystack.includes(needle)` (substring test). -/
def containsSub (haystack needle : LStr) : Bool :=
  (List.range (haystack.length + 1)).any (fun i => startsWithL needle (haystack.drop i))

/-- `[...new Set(l)]`: deduplication keeping the first occurrence of each element. -/
def dedupFirst : List LStr → List LStr :=
  go []
where
  go (seen : List LStr) : List LStr → List LStr
    | [] => []
    | x :: xs => if x ∈ seen then go seen xs else x :: go (x :: seen) xs

/-- JavaScript default string order: lexicographic by code unit. -/
def lexLt : LStr → LStr → Bool
  | [], [] => false
  | [], _ :: _ => true
  | _ :: _, [] => false
  | a :: as, b :: bs => if a.val < b.val then true else if b.val < a.val then false else lexLt as bs

/-- Insertion sort by `lexLt` (all sorted lists here have pairwise-distinct keys,
so this agrees with `Array.prototype.sort()`). -/
def insertLex (x : LStr) : List LStr → List LStr
  | [] => [x]
  | y :: ys => if lexLt x y then x :: y :: ys else y :: insertLex x ys

def sortLex : List LStr → List LStr
  | [] => []
  | x :: xs => insertLex x (sortLex xs)

/-- Decimal rendering of a `Nat`, as a character list. -/
def natToLStr (n : Nat) : LStr := (Nat.repr n).toList

/-- `splitWs` is `query.split(/\s+/)` (query is always trimmed when this is called;
JavaScript returns `[""]` on the empty string, which the `[]` base case yields). -/
def splitWs (s : LStr) : List LStr :=
  go s []
where
  go : LStr → LStr → List LStr
    | [], acc => [acc.reverse]
    | c :: cs, acc =>
      if isWsChar c then acc.reverse :: go (cs.dropWhile isWsChar) []
      else go cs (c :: acc)
  termination_by l _ => l.length
  decreasing_by
    · simp only [List.length_cons]
      refine Nat.lt_succ_of_le ?_
      induction cs with
      | nil => simp [List.dropWhile]
      | cons c2 cs2 ih =>
        by_cases h : isWsChar c2
        · simp only [List.dropWhile, h]
          exact Nat.le_succ_of_le ih
        · simp [List.dropWhile, h]
    · simp

/-! ## Block scanner

The two scanning passes of `TheoremIndexerTool.indexTheorems`,
`GetProofTool.extractAllTheorems` and `TheoremExtractorTool.extractTheorems`
share the same pair of regexes:

* `beginPattern = \\begin\{(<kinds-joined-by-|>)\}(?:\[(.*?)\])?(?:\{(.*?)\})?` with flags `gi`
* `endPattern   = \\end\{([^}]+)\}` with flags `gi`

`scanOpens`/`scanCloses` embed the `g`-flag scan: at each position, try the
pattern; on success emit the match data and continue after the match,
otherwise advance one character. -/

/-- One entry of the `theoremStack` worklist built by the first pass. -/
structure OpenEvt where
  type : LStr
  name : Option LStr
  label : Option LStr
  startLine : Nat
  startIndex : Nat
  deriving Repr, DecidableEq

/-- One match of `endPattern` found by the second pass. -/
structure CloseEvt where
  typ : LStr
  endIndex : Nat
  matchLen : Nat
  endLine : Nat
  deriving Repr, DecidableEq

/-- Lazy optional group `(?:<open>(.*?)<close>)?` of `beginPattern`: if the text
starts with `openC`, capture up to the first `closeC`, with `.` not crossing a
line terminator; a group that cannot close matches empty (capture absent).
Returns the capture and the number of characters consumed. -/
def lazyGroup (openC closeC : Char) (s : LStr) : Option LStr × Nat :=
  match s with
  | [] => (none, 0)
  | c :: cs =>
    if c == openC then
      match go cs [] 0 with
      | some (cap, n) => (some cap, n + 2)
      | none => (none, 0)
    else (none, 0)
where
  go : LStr → LStr → Nat → Option (LStr × Nat)
    | [], _, _ => none
    | c :: cs, acc, n =>
      if c == closeC then some (acc.reverse, n)
      else if c == '\n' || c == '\r' then none
      else go cs (c :: acc) (n + 1)

/-- Try `beginPattern` at the head of `rest`: `\begin{`, one of the recognized
kinds (ordered alternation, case-insensitive) followed by `}`, then the two
optional groups.  Returns `(lowercased kind, name capture, label capture,
match length)`. -/
def tryOpen (kinds : List LStr) (rest : LStr) : Option (LStr × Option LStr × Option LStr × Nat) :=
  if startsWithCI ("\\begin\x7b".toList) rest then
    let rest2 := rest.drop 7
    match kinds.find? (fun k => startsWithCI (k ++ ['}']) rest2) with
    | some k =>
      let envRaw := rest2.take k.length
      let rest3 := rest2.drop (k.length + 1)
      let (name, n1) := lazyGroup '[' ']' rest3
      let (label, n2) := lazyGroup '{' '}' (rest3.drop n1)
      some (lcStr envRaw, name, label, 7 + k.length + 1 + n1 + n2)
    | none => none
  else none

/-- First pass of the scan: all matches of `beginPattern`, in document order. -/
def scanOpensAux (kinds : List LStr) (content : LStr) : Nat → Nat → List OpenEvt
  | 0, _ => []
  | fuel + 1, pos =>
    if pos < content.length then
      match tryOpen kinds (content.drop pos) with
      | some (ty, name, label, len) =>
        { type := ty, name := name, label := label,
          startLine := getLineNumber content pos, startIndex := pos }
          :: scanOpensAux kinds content fuel (pos + len)
      | none => scanOpensAux kinds content fuel (pos + 1)
    else []

def scanOpens (kinds : List LStr) (content : LStr) : List OpenEvt :=
  scanOpensAux kinds content (content.length + 1) 0

/-- Try `endPattern` at the head of `rest`: `\end{` (case-insensitive), a
nonempty run of non-`}` characters, then `}`. -/
def tryClose (rest : LStr) : Option (LStr × Nat) :=
  if startsWithCI ("\\end\x7b".toList) rest then
    let rest2 := rest.drop 5
    let run := rest2.takeWhile (fun c => !(c == '}'))
    if run.isEmpty then none
    else if (rest2.drop run.length).headD ' ' == '}' then some (run, 5 + run.length + 1)
    else none
  else none

/-- Second pass of the scan: all matches of `endPattern`, in document order. -/
def scanClosesAux (content : LStr) : Nat → Nat → List CloseEvt
  | 0, _ => []
  | fuel + 1, pos =>
    if pos < content.length then
      match tryClose (content.drop pos) with
      | some (ty, len) =>
        { typ := ty, endIndex := pos, matchLen := len,
          endLine := getLineNumber content pos }
          :: scanClosesAux content fuel (pos + len)
      | none => scanClosesAux content fuel (pos + 1)
    else []

def scanCloses (content : LStr) : List CloseEvt :=
  scanClosesAux content (content.length + 1) 0

/-- The inner `for (let i = currentTheorem; ...)` search of the second pass:
first not-yet-consumed open whose kind equals the lowercased closing kind;
on a hit the cursor advances past it (everything before it is skipped for
good as well). -/
def findOpen : List OpenEvt → CloseEvt → Option (OpenEvt × List OpenEvt)
  | [], _ => none
  | o :: os, c => if o.type = lcStr c.typ then some (o, os) else findOpen os c

/-- The matching loop shared verbatim by all three tools: for each closing
delimiter in document order, pair it with the first available open of the
same kind; closes with no matching open are ignored. -/
def matchEnvs : List CloseEvt → List OpenEvt → List (OpenEvt × CloseEvt)
  | [], _ => []
  | c :: cs, opens =>
    match findOpen opens c with
    | some (o, rest) => (o, c) :: matchEnvs cs rest
    | none => matchEnvs cs opens

/-! ## Content extractors -/

/-- First index of `needle` in `hay` (`hay.indexOf(needle)` when it occurs). -/
def findSubIdx (hay needle : LStr) : Option Nat :=
  (List.range (hay.length + 1)).find? (fun i => startsWithL needle (hay.drop i))

/-- Last index of `needle` in `hay` (`hay.lastIndexOf(needle)` when it occurs). -/
def lastIndexOfSub (hay needle : LStr) : Option Nat :=
  ((List.range (hay.length + 1)).filter (fun i => startsWithL needle (hay.drop i))).getLast?

/-- `hay.indexOf(needle)` with the JavaScript `-1` for "absent". -/
def jsIndexOf (hay needle : LStr) : Int :=
  match findSubIdx hay needle with
  | some i => (i : Int)
  | none => -1

/-- `s.substring(a, b)`: JavaScript swaps the arguments when `a > b`. -/
def jsSubstring (s : LStr) (a b : Nat) : LStr :=
  sliceStr s (min a b) (max a b)

/-- Greedy optional group `(?:<open>[^<close>]*<close>)?` (interior may be empty
and may span lines).  Returns the number of characters consumed. -/
def greedyGroupE (openC closeC : Char) (s : LStr) : Nat :=
  match s with
  | [] => 0
  | c :: cs =>
    if c == openC then
      let run := cs.takeWhile (fun x => !(x == closeC))
      if (cs.drop run.length).headD ' ' == closeC then run.length + 2 else 0
    else 0

/-- First match of `/\\begin\{[^}]+\}(?:\[[^\]]*\])?(?:\{[^}]*\})?/` in `raw`
(case-sensitive, used by `extractStatement`): returns (index, match length). -/
def findStmtBeginAux (raw : LStr) : Nat → Nat → Option (Nat × Nat)
  | 0, _ => none
  | fuel + 1, pos =>
    if pos < raw.length then
      let rest := raw.drop pos
      if startsWithL ("\\begin\x7b".toList) rest then
        let run := (rest.drop 7).takeWhile (fun x => !(x == '}'))
        if !run.isEmpty && ((rest.drop 7).drop run.length).headD ' ' == '}' then
          let rest2 := rest.drop (7 + run.length + 1)
          let g1 := greedyGroupE '[' ']' rest2
          let g2 := greedyGroupE '{' '}' (rest2.drop g1)
          some (pos, 7 + run.length + 1 + g1 + g2)
        else findStmtBeginAux raw fuel (pos + 1)
      else findStmtBeginAux raw fuel (pos + 1)
    else none

def findStmtBegin (raw : LStr) : Option (Nat × Nat) :=
  findStmtBeginAux raw (raw.length + 1) 0

/-- First match of `/\\end\{[^}]+\}/` in `raw`: returns (index, matched text). -/
def findStmtEndAux (raw : LStr) : Nat → Nat → Option (Nat × LStr)
  | 0, _ => none
  | fuel + 1, pos =>
    if pos < raw.length then
      let rest := raw.drop pos
      if startsWithL ("\\end\x7b".toList) rest then
        let run := (rest.drop 5).takeWhile (fun x => !(x == '}'))
        if !run.isEmpty && ((rest.drop 5).drop run.length).headD ' ' == '}' then
          some (pos, "\\end\x7b".toList ++ run ++ ['}'])
        else findStmtEndAux raw fuel (pos + 1)
      else findStmtEndAux raw fuel (pos + 1)
    else none

def findStmtEnd (raw : LStr) : Option (Nat × LStr) :=
  findStmtEndAux raw (raw.length + 1) 0

/-- Global replace of `/\\label\{[^}]*\}/` by the empty string. -/
def removeLabels : Nat → LStr → LStr
  | 0, _ => []
  | _ + 1, [] => []
  | fuel + 1, s@(c :: cs) =>
    if startsWithL ("\\label\x7b".toList) s then
      let run := (s.drop 7).takeWhile (fun x => !(x == '}'))
      if ((s.drop 7).drop run.length).headD ' ' == '}' then
        removeLabels fuel (s.drop (7 + run.length + 1))
      else c :: removeLabels fuel cs
    else c :: removeLabels fuel cs

/-- Index of the last `'\n'` in `w` (meaningful only when one is present). -/
def lastNlIdx (w : LStr) : Nat :=
  w.length - 1 - (w.reverse.takeWhile (fun c => !(c == '\n'))).length

/-- Global multiline replace of `/^\s*\n+/` by the empty string: at each line
start, the whitespace run is deleted up to and including its last newline. -/
def replAAux : Nat → Bool → LStr → LStr
  | 0, _, _ => []
  | _ + 1, _, [] => []
  | fuel + 1, anchor, s@(c :: cs) =>
    if anchor then
      let w := s.takeWhile isWsChar
      if w.any (· == '\n') then replAAux fuel true (s.drop (lastNlIdx w + 1))
      else c :: replAAux fuel (c == '\n') cs
    else c :: replAAux fuel (c == '\n') cs

def replA (s : LStr) : LStr := replAAux (s.length + 1) true s

/-- Global multiline replace of `/\s*\n+\s*$/` by the empty string: a
whitespace run that reaches the end of the string and holds a newline is
deleted whole; a run holding at least two newlines is deleted up to (not
including) its last newline, the multiline `$` anchor sitting before it. -/
def replBAux : Nat → LStr → LStr
  | 0, _ => []
  | _ + 1, [] => []
  | fuel + 1, s@(c :: cs) =>
    if isWsChar c then
      let w := s.takeWhile isWsChar
      let rest := s.drop w.length
      if rest.isEmpty && w.any (· == '\n') then []
      else if 2 ≤ (w.filter (· == '\n')).length then replBAux fuel (s.drop (lastNlIdx w))
      else w ++ replBAux fuel rest
    else c :: replBAux fuel cs

def replB (s : LStr) : LStr := replBAux (s.length + 1) s

/-- `extractStatement` (identical in all three tools): strips the begin/end
delimiters, trims, removes labeling commands and blank-line runs. -/
def extractStatement (rawContent : LStr) : LStr :=
  match findStmtBegin rawContent, findStmtEnd rawContent with
  | some (bp, blen), some (_, etext) =>
    let start := bp + blen
    let endIdx := (lastIndexOfSub rawContent etext).getD 0
    let stmt := jsTrim (jsSubstring rawContent start endIdx)
    replB (replA (removeLabels (stmt.length + 1) stmt))
  | _, _ => jsTrim rawContent

/-- All arguments of `/<cmd>\{([^}]+)\}/g` in document order (`cmd` includes
the opening brace). -/
def scanCmdArgsAux (cmd : LStr) (content : LStr) : Nat → Nat → List LStr
  | 0, _ => []
  | fuel + 1, pos =>
    if pos < content.length then
      let rest := content.drop pos
      if startsWithL cmd rest then
        let run := (rest.drop cmd.length).takeWhile (fun x => !(x == '}'))
        if !run.isEmpty && ((rest.drop cmd.length).drop run.length).headD ' ' == '}' then
          run :: scanCmdArgsAux cmd content fuel (pos + cmd.length + run.length + 1)
        else scanCmdArgsAux cmd content fuel (pos + 1)
      else scanCmdArgsAux cmd content fuel (pos + 1)
    else []

def scanCmdArgs (cmd : LStr) (content : LStr) : List LStr :=
  scanCmdArgsAux cmd content (content.length + 1) 0

/-- `extractReferences`: all `\ref{...}` arguments, then all `\eqref{...}`
arguments, deduplicated keeping first occurrences (`[...new Set(...)]`). -/
def extractReferences (content : LStr) : List LStr :=
  dedupFirst (scanCmdArgs ("\\ref\x7b".toList) content ++ scanCmdArgs ("\\eqref\x7b".toList) content)

/-- First match of `/\\label\{([^}]+)\}/` in `raw` (the label fallback of
`GetProofTool.extractAllTheorems`). -/
def firstLabelArg (raw : LStr) : Option LStr :=
  (scanCmdArgs ("\\label\x7b".toList) raw).head?

/-! ### Symbol extraction -/

def isAsciiLetter (c : Char) : Bool :=
  ('a' ≤ c && c ≤ 'z') || ('A' ≤ c && c ≤ 'Z')

def mathGlyphs : LStr := "∀∃∈∉⊆⊇∪∩∅∞".toList

/-- Tokens of `/\\[a-zA-Z]+|[a-zA-Z]+|[∀∃∈∉⊆⊇∪∩∅∞]/g` inside one captured span. -/
def innerSymbolsAux : Nat → LStr → List LStr
  | 0, _ => []
  | _ + 1, [] => []
  | fuel + 1, c :: cs =>
    if c == '\\' && isAsciiLetter (cs.headD ' ') then
      let run := cs.takeWhile isAsciiLetter
      (c :: run) :: innerSymbolsAux fuel (cs.drop run.length)
    else if isAsciiLetter c then
      let run := (c :: cs).takeWhile isAsciiLetter
      run :: innerSymbolsAux fuel ((c :: cs).drop run.length)
    else if c ∈ mathGlyphs then [c] :: innerSymbolsAux fuel cs
    else innerSymbolsAux fuel cs

def innerSymbols (s : LStr) : List LStr := innerSymbolsAux (s.length + 1) s

/-- Capture groups of `/\\([a-zA-Z]+)/g`: command names without the backslash. -/
def cmdCapsAux : Nat → LStr → List LStr
  | 0, _ => []
  | _ + 1, [] => []
  | fuel + 1, c :: cs =>
    if c == '\\' && isAsciiLetter (cs.headD ' ') then
      let run := cs.takeWhile isAsciiLetter
      run :: cmdCapsAux fuel (cs.drop run.length)
    else cmdCapsAux fuel cs

def cmdCaps (s : LStr) : List LStr := cmdCapsAux (s.length + 1) s

/-- Capture groups of `/\$([^$]+)\$/g`: inline math spans. -/
def inlineMathCapsAux : Nat → LStr → List LStr
  | 0, _ => []
  | _ + 1, [] => []
  | fuel + 1, c :: cs =>
    if c == '$' then
      let run := cs.takeWhile (fun x => !(x == '$'))
      if !run.isEmpty && (cs.drop run.length).headD ' ' == '$' then
        run :: inlineMathCapsAux fuel (cs.drop (run.length + 1))
      else inlineMathCapsAux fuel cs
    else inlineMathCapsAux fuel cs

def inlineMathCaps (s : LStr) : List LStr := inlineMathCapsAux (s.length + 1) s

/-- Capture groups of `/\\\[([^\]]+)\\\]/g`: display math spans. -/
def dispMathCapsAux : Nat → LStr → List LStr
  | 0, _ => []
  | _ + 1, [] => []
  | fuel + 1, c :: cs =>
    if c == '\\' && cs.headD ' ' == '[' then
      let run := (cs.drop 1).takeWhile (fun x => !(x == ']'))
      if 2 ≤ run.length && run.getLastD ' ' == '\\'
          && ((cs.drop 1).drop run.length).headD ' ' == ']' then
        run.dropLast :: dispMathCapsAux fuel ((cs.drop 1).drop (run.length + 1))
      else dispMathCapsAux fuel cs
    else dispMathCapsAux fuel cs

def dispMathCaps (s : LStr) : List LStr := dispMathCapsAux (s.length + 1) s

/-- Capture groups of `/\\begin\{<env>\}(.*?)\\end\{<env>\}/gs` (lazy, dot
crosses newlines because of the `s` flag). -/
def envCapsAux (beginTok endTok : LStr) (content : LStr) : Nat → Nat → List LStr
  | 0, _ => []
  | fuel + 1, pos =>
    if pos < content.length then
      let rest := content.drop pos
      if startsWithL beginTok rest then
        match findSubIdx (rest.drop beginTok.length) endTok with
        | some j =>
          (rest.drop beginTok.length).take j
            :: envCapsAux beginTok endTok content fuel (pos + beginTok.length + j + endTok.length)
        | none => envCapsAux beginTok endTok content fuel (pos + 1)
      else envCapsAux beginTok endTok content fuel (pos + 1)
    else []

def envCaps (beginTok endTok : LStr) (content : LStr) : List LStr :=
  envCapsAux beginTok endTok content (content.length + 1) 0

/-- `extractSymbols` (identical in `TheoremIndexerTool` and
`TheoremExtractorTool`): for each of the five patterns in order, for each
match in order, if the capture is nonempty collect its inner tokens; finally
deduplicate (first occurrence kept) and sort. -/
def extractSymbols (content : LStr) : List LStr :=
  let caps :=
    cmdCaps content
      ++ inlineMathCaps content
      ++ dispMathCaps content
      ++ envCaps ("\\begin{equation}".toList) ("\\end{equation}".toList) content
      ++ envCaps ("\\begin{align}".toList) ("\\end{align}".toList) content
  sortLex (dedupFirst ((caps.filter (fun c => !c.isEmpty)).flatMap innerSymbols))

/-! ## Block records and the scanning surfaces -/

/-- `IndexedTheorem` of `TheoremIndexerTool`. -/
structure IndexedTheorem where
  id : LStr
  type : LStr
  name : Option LStr
  label : Option LStr
  statement : LStr
  filePath : LStr
  lineNumber : Nat
  endLineNumber : Nat
  rawContent : LStr
  references : List LStr
  symbols : List LStr
  dependencies : List LStr
  dependents : List LStr
  index : Nat
  deriving Repr, DecidableEq

instance : Inhabited IndexedTheorem :=
  ⟨{ id := [], type := [], name := none, label := none, statement := [], filePath := [],
     lineNumber := 0, endLineNumber := 0, rawContent := [], references := [], symbols := [],
     dependencies := [], dependents := [], index := 0 }⟩

/-- `ProofResult` of `GetProofTool`. -/
structure ProofResult where
  type : LStr
  name : Option LStr
  label : Option LStr
  statement : LStr
  proof : Option LStr
  filePath : LStr
  lineNumber : Nat
  endLineNumber : Nat
  proofStartLine : Option Nat
  proofEndLine : Option Nat
  rawContent : LStr
  rawProofContent : Option LStr
  hasProof : Bool
  deriving Repr, DecidableEq

/-- `generateTheoremId`: the label when present (and nonempty — JavaScript
truthiness), otherwise `<type>_<counter + 1>`. -/
def generateTheoremId (type : LStr) (label : Option LStr) (counter : Nat) : LStr :=
  match label with
  | some l => if l.isEmpty then type ++ '_' :: natToLStr (counter + 1) else l
  | none => type ++ '_' :: natToLStr (counter + 1)

/-- Default `theoremTypes` of `TheoremIndexerTool` and `TheoremExtractorTool`. -/
def defaultTheoremTypes : List LStr :=
  ["theorem", "lemma", "corollary", "proposition", "definition",
   "example", "remark", "proof", "conjecture", "axiom"].map String.toList

/-- Default `theoremTypes` of `GetProofTool` (no `proof`). -/
def defaultProofSearchTypes : List LStr :=
  ["theorem", "lemma", "corollary", "proposition", "definition",
   "example", "remark", "conjecture", "axiom"].map String.toList

/-- The body of the second-pass loop of `indexTheorems` for the `k`-th emitted
block (`theoremCounter = k` when `generateTheoremId` runs, `index = k + 1`). -/
def mkIndexedTheorem (content path : LStr) (extractRefs extractSyms : Bool)
    (k : Nat) (oc : OpenEvt × CloseEvt) : IndexedTheorem :=
  let raw := sliceStr content oc.1.startIndex (oc.2.endIndex + oc.2.matchLen)
  { id := generateTheoremId oc.1.type oc.1.label k
    type := oc.1.type
    name := oc.1.name
    label := oc.1.label
    statement := extractStatement raw
    filePath := path
    lineNumber := oc.1.startLine
    endLineNumber := oc.2.endLine
    rawContent := raw
    references := if extractRefs then extractReferences raw else []
    symbols := if extractSyms then extractSymbols raw else []
    dependencies := []
    dependents := []
    index := k + 1 }

/-- The block list produced by the two scanning passes of
`TheoremIndexerTool.indexTheorems` (before `buildIndex` runs). -/
def indexTheoremsBlocks (content path : LStr) (kinds : List LStr)
    (extractRefs extractSyms : Bool) : List IndexedTheorem :=
  ((matchEnvs (scanCloses content) (scanOpens kinds content)).enum).map
    (fun p => mkIndexedTheorem content path extractRefs extractSyms p.1 p.2)

/-- The body of the second-pass loop of `GetProofTool.extractAllTheorems`:
same matching, plus the `\label{...}` fallback when the opening delimiter
carried no (nonempty) label. -/
def mkProofBlock (content path : LStr) (oc : OpenEvt × CloseEvt) : ProofResult :=
  let raw := sliceStr content oc.1.startIndex (oc.2.endIndex + oc.2.matchLen)
  let label :=
    match oc.1.label with
    | some l => if l.isEmpty then some ((firstLabelArg raw).getD l) else some l
    | none => firstLabelArg raw
  { type := oc.1.type
    name := oc.1.name
    label := label
    statement := extractStatement raw
    proof := none
    filePath := path
    lineNumber := oc.1.startLine
    endLineNumber := oc.2.endLine
    proofStartLine := none
    proofEndLine := none
    rawContent := raw
    rawProofContent := none
    hasProof := false }

/-- `GetProofTool.extractAllTheorems` (cancellation aside). -/
def extractAllTheorems (content path : LStr) (kinds : List LStr) : List ProofResult :=
  (matchEnvs (scanCloses content) (scanOpens kinds content)).map
    (mkProofBlock content path)

/-! ## Index builder

JavaScript objects used as maps are modelled as association lists: assignment
replaces the value of an existing key in place (or appends a new key), which
preserves the key-insertion iteration order that `detectCyclicDependencies`
relies on.  The `index.theorems` map stores object references to the entries
of the `theorems` array; reference identity is modelled by storing the
position of the record in that array. -/

/-- `obj[k] = v` on an association list. -/
def setAssoc {β : Type} (k : LStr) (v : β) : List (LStr × β) → List (LStr × β)
  | [] => [(k, v)]
  | (k', v') :: rest => if k' = k then (k', v) :: rest else (k', v') :: setAssoc k v rest

/-- Lookup on an association list. -/
def lookupAssoc {β : Type} (k : LStr) : List (LStr × β) → Option β
  | [] => none
  | (k', v) :: rest => if k' = k then some v else lookupAssoc k rest

/-- `obj[k].push(v)` (the key is always present when this runs). -/
def pushAssoc (k : LStr) (v : LStr) : List (LStr × List LStr) → List (LStr × List LStr)
  | [] => []
  | (k', vs) :: rest => if k' = k then (k', vs ++ [v]) :: rest else (k', vs) :: pushAssoc k v rest

/-- `if (!obj[k]) obj[k] = []; obj[k].push(v)`. -/
def initPushAssoc (k : LStr) (v : LStr) (m : List (LStr × List LStr)) : List (LStr × List LStr) :=
  match lookupAssoc k m with
  | some _ => pushAssoc k v m
  | none => m ++ [(k, [v])]

/-- Replace the element at position `p` (no-op out of range). -/
def modIdx {α : Type} (p : Nat) (f : α → α) : List α → List α
  | [] => []
  | x :: xs => match p with
    | 0 => f x :: xs
    | q + 1 => x :: modIdx q f xs

/-- `TheoremIndex` with `theorems` as a key → array-position map. -/
structure TheoremIndex where
  labelToId : List (LStr × LStr)
  theoremsPos : List (LStr × Nat)
  typeIndex : List (LStr × List LStr)
  symbolIndex : List (LStr × List LStr)
  dependencyGraph : List (LStr × List LStr)
  reverseDependencyGraph : List (LStr × List LStr)
  deriving Repr, DecidableEq

/-- One iteration of the first `buildIndex` loop for the theorem at position `p`. -/
def indexBaseStep (idx : TheoremIndex) (pt : Nat × IndexedTheorem) : TheoremIndex :=
  let p := pt.1
  let t := pt.2
  { labelToId :=
      match t.label with
      | some l => if l.isEmpty then idx.labelToId else setAssoc l t.id idx.labelToId
      | none => idx.labelToId
    theoremsPos := setAssoc t.id p idx.theoremsPos
    typeIndex := initPushAssoc t.type t.id idx.typeIndex
    symbolIndex := t.symbols.foldl (fun m s => initPushAssoc s t.id m) idx.symbolIndex
    dependencyGraph := setAssoc t.id [] idx.dependencyGraph
    reverseDependencyGraph := setAssoc t.id [] idx.reverseDependencyGraph }

/-- The first `buildIndex` loop, walking the `theorems` array with its
positions. -/
def indexBaseGo (acc : TheoremIndex) (p : Nat) : List IndexedTheorem → TheoremIndex
  | [] => acc
  | t :: rest => indexBaseGo (indexBaseStep acc (p, t)) (p + 1) rest

/-- The first `buildIndex` loop: label/theorem/type/symbol tables and the
empty-initialized dependency graphs. -/
def indexBase (ts : List IndexedTheorem) : TheoremIndex :=
  indexBaseGo
    { labelToId := [], theoremsPos := [], typeIndex := [], symbolIndex := [],
      dependencyGraph := [], reverseDependencyGraph := [] } 0 ts

/-- The mutable state of the dependency-building loop: the `theorems` array
and the two graphs. -/
structure DepState where
  recs : List IndexedTheorem
  fwd : List (LStr × List LStr)
  rev : List (LStr × List LStr)
  deriving Repr, DecidableEq

/-- The body of the inner reference loop: resolve `r` through `labelToId`;
a hit on a different (nonempty) identifier records the edge in both graphs
and on both theorem objects; anything else changes nothing. -/
def processRef (l2i : List (LStr × LStr)) (tpos : List (LStr × Nat)) (p : Nat)
    (s : DepState) (r : LStr) : DepState :=
  let aid := ((s.recs.getD p default).id)
  match lookupAssoc r l2i with
  | some rid =>
    if rid.isEmpty then s
    else if rid = aid then s
    else
      let s1 : DepState :=
        { s with fwd := pushAssoc aid rid s.fwd, rev := pushAssoc rid aid s.rev }
      let s2 : DepState :=
        { s1 with recs := modIdx p (fun t => { t with dependencies := t.dependencies ++ [rid] }) s1.recs }
      match lookupAssoc rid tpos with
      | some q => { s2 with recs := modIdx q (fun t => { t with dependents := t.dependents ++ [aid] }) s2.recs }
      | none => s2
  | none => s

/-- The outer dependency loop body for the theorem at position `p`. -/
def processTheorem (l2i : List (LStr × LStr)) (tpos : List (LStr × Nat))
    (s : DepState) (p : Nat) : DepState :=
  ((s.recs.getD p default).references).foldl (processRef l2i tpos p) s

/-- `buildIndex`: the base tables, then (when enabled) the dependency loop.
Returns the index together with the updated `theorems` array (the source
mutates the array's objects in place). -/
def buildIndex (ts : List IndexedTheorem) (buildDependencies : Bool) :
    TheoremIndex × List IndexedTheorem :=
  let base := indexBase ts
  if buildDependencies then
    let s := (List.range ts.length).foldl (processTheorem base.labelToId base.theoremsPos)
      { recs := ts, fwd := base.dependencyGraph, rev := base.reverseDependencyGraph }
    ({ base with dependencyGraph := s.fwd, reverseDependencyGraph := s.rev }, s.recs)
  else (base, ts)

/-! ## Cycle detector -/

/-- The recursive `dfs` of `detectCyclicDependencies`, with the recursion
stack represented by the path (the source keeps them in lockstep) and fuel
for the structural recursion (the supplied fuel always suffices: each level
of real recursion adds a node to `visited`). -/
def dfsCycles (g : List (LStr × List LStr)) :
    Nat → LStr → List LStr → List LStr → List (List LStr) → List LStr × List (List LStr)
  | 0, _, _, visited, cycles => (visited, cycles)
  | fuel + 1, node, path, visited, cycles =>
    if node ∈ path then
      let i := path.indexOf node
      (visited, cycles ++ [path.drop i ++ [node]])
    else if node ∈ visited then (visited, cycles)
    else
      let deps := (lookupAssoc node g).getD []
      deps.foldl (fun vc d => dfsCycles g fuel d (path ++ [node]) vc.1 vc.2)
        (visited ++ [node], cycles)

/-- `detectCyclicDependencies`: depth-first search from every key of the
dependency graph in insertion order. -/
def detectCyclicDependencies (g : List (LStr × List LStr)) : List (List LStr) :=
  let fuel := g.length + (g.map (fun e => e.2.length)).sum + 1
  (g.map Prod.fst).foldl
    (fun vc node => if node ∈ vc.1 then vc else dfsCycles g fuel node [] vc.1 vc.2)
    ([], []) |>.2

/-! ## Fuzzy matcher (`GetProofTool.findBestMatch`) -/

/-- JavaScript truthiness guard for the optional string fields. -/
def optNonempty : Option LStr → Bool
  | some l => !l.isEmpty
  | none => false

/-- `theorem.label && theorem.label.toLowerCase() === query`. -/
def labelEqQ (t : ProofResult) (query : LStr) : Bool :=
  match t.label with
  | some l => !l.isEmpty && (lcStr l = query)
  | none => false

/-- Number of query words of length > 2 contained in the lowercased statement. -/
def wordMatchCount (words : List LStr) (stmtLower : LStr) : Nat :=
  (words.filter (fun w => 2 < w.length && containsSub stmtLower w)).length

/-- `Math.max` on exact rationals (spelled out so that it evaluates by kernel
reduction; equal to `max`, see `qmax_eq_max`). -/
def qmax (a b : ℚ) : ℚ := if a ≤ b then b else a

/-- The score accumulated for one candidate by the loop body of
`findBestMatch` (the maximum over the applicable rules; the score variable
only ever grows through `Math.max`). -/
def scoreOf (fuzzyMatch : Bool) (query : LStr) (t : ProofResult) : ℚ :=
  let s1 : ℚ := if optNonempty t.name && (lcStr (t.name.getD []) = query) then 100 else 0
  let s2 : ℚ := qmax s1 (if optNonempty t.label && containsSub (lcStr (t.label.getD [])) query then 80 else 0)
  let s3 : ℚ := qmax s2 (if optNonempty t.name && containsSub (lcStr (t.name.getD [])) query then 70 else 0)
  let s4 : ℚ :=
    if fuzzyMatch then
      let words := splitWs query
      let wm := wordMatchCount words (lcStr t.statement)
      if 0 < wm then qmax s3 ((wm : ℚ) / (words.length : ℚ) * 60) else s3
    else s3
  qmax s4 (if containsSub (lcStr t.type) query then 40 else 0)

/-- The candidate loop of `findBestMatch`: an exact (case-insensitive) label
match returns that candidate immediately; otherwise the strictly best score
wins, and the final result is kept only above the threshold of 30. -/
def findBestMatchAux (query : LStr) (fuzzyMatch : Bool) :
    List ProofResult → Option ProofResult → ℚ → Option ProofResult
  | [], best, bestScore => if 30 < bestScore then best else none
  | t :: ts, best, bestScore =>
    if labelEqQ t query then some t
    else
      let s := scoreOf fuzzyMatch query t
      if bestScore < s then findBestMatchAux query fuzzyMatch ts (some t) s
      else findBestMatchAux query fuzzyMatch ts best bestScore

/-- `findBestMatch(theorems, identifier, fuzzyMatch)`. -/
def findBestMatch (theorems : List ProofResult) (identifier : LStr) (fuzzyMatch : Bool) :
    Option ProofResult :=
  findBestMatchAux (lcStr (jsTrim identifier)) fuzzyMatch theorems none 0

/-! ## Proof locator (`GetProofTool.findProofForTheorem`) -/

/-- First match of `/\\begin\{proof\}(?:\[[^\]]*\])?/i`: (index, length). -/
def findProofBeginAux (s : LStr) : Nat → Nat → Option (Nat × Nat)
  | 0, _ => none
  | fuel + 1, pos =>
    if pos < s.length then
      let rest := s.drop pos
      if startsWithCI ("\\begin{proof}".toList) rest then
        some (pos, 13 + greedyGroupE '[' ']' (rest.drop 13))
      else findProofBeginAux s fuel (pos + 1)
    else none

def findProofBeginM (s : LStr) : Option (Nat × Nat) :=
  findProofBeginAux s (s.length + 1) 0

/-- First match of `/\\end\{proof\}/i`: (index, matched text). -/
def findProofEndAux (s : LStr) : Nat → Nat → Option (Nat × LStr)
  | 0, _ => none
  | fuel + 1, pos =>
    if pos < s.length then
      let rest := s.drop pos
      if startsWithCI ("\\end{proof}".toList) rest then some (pos, rest.take 11)
      else findProofEndAux s fuel (pos + 1)
    else none

def findProofEndM (s : LStr) : Option (Nat × LStr) :=
  findProofEndAux s (s.length + 1) 0

/-- `extractProofStatement`: strip the proof delimiters, trim, remove
blank-line runs (labels are kept here, unlike `extractStatement`). -/
def extractProofStatement (rawProofContent : LStr) : LStr :=
  match findProofBeginM rawProofContent, findProofEndM rawProofContent with
  | some (bp, blen), some (_, etext) =>
    let start := bp + blen
    let endIdx := (lastIndexOfSub rawProofContent etext).getD 0
    replB (replA (jsTrim (jsSubstring rawProofContent start endIdx)))
  | _, _ => jsTrim rawProofContent

/-- The data `findProofForTheorem` fills in. -/
structure ProofLocation where
  proof : Option LStr
  rawProofContent : Option LStr
  proofStartLine : Option Nat
  proofEndLine : Option Nat
  deriving Repr, DecidableEq

def noProofLocation : ProofLocation :=
  { proof := none, rawProofContent := none, proofStartLine := none, proofEndLine := none }

/-- `findProofForTheorem`: relocate the theorem by first occurrence of its raw
text, then find the first `proof` environment after it. -/
def findProofForTheorem (content : LStr) (t : ProofResult) : ProofLocation :=
  let theoremEndIndex : Int := jsIndexOf content t.rawContent + (t.rawContent.length : Int)
  let remainingContent := content.drop theoremEndIndex.toNat
  match findProofBeginM remainingContent with
  | none => noProofLocation
  | some (bi, _) =>
    let proofStartIndex := theoremEndIndex.toNat + bi
    let proofStartLine := getLineNumber content proofStartIndex
    let proofContent := content.drop proofStartIndex
    match findProofEndM proofContent with
    | none => noProofLocation
    | some (ei, etext) =>
      let proofEndIndex := proofStartIndex + ei + etext.length
      let proofEndLine := getLineNumber content proofEndIndex
      let rawProofContent := sliceStr content proofStartIndex proofEndIndex
      { proof := some (extractProofStatement rawProofContent)
        rawProofContent := some rawProofContent
        proofStartLine := some proofStartLine
        proofEndLine := some proofEndLine }

/-- `GetProofResult` (the `error` field is kept as a flag). -/
structure GetProofResult where
  result : Option ProofResult
  found : Bool
  hasError : Bool
  potentialMatches : List ProofResult
  deriving Repr, DecidableEq

/-- `findProof` after its theorem-extraction step: best match, threshold
handling, and proof attachment (`hasProof = !!proofContent.proof`). -/
def findProofFromTheorems (content : LStr) (theorems : List ProofResult)
    (identifier : LStr) (fuzzyMatch : Bool) : GetProofResult :=
  match findBestMatch theorems identifier fuzzyMatch with
  | none =>
    { result := none, found := false, hasError := true,
      potentialMatches := theorems.take 5 }
  | some bestMatch =>
    let loc := findProofForTheorem content bestMatch
    { result := some { bestMatch with
        proof := loc.proof
        rawProofContent := loc.rawProofContent
        proofStartLine := loc.proofStartLine
        proofEndLine := loc.proofEndLine
        hasProof := optNonempty loc.proof }
      found := true
      hasError := false
      potentialMatches := [] }

/-- `GetProofTool.findProof` on already-read content. -/
def findProof (content path : LStr) (identifier : LStr) (kinds : List LStr)
    (fuzzyMatch : Bool) : GetProofResult :=
  findProofFromTheorems content (extractAllTheorems content path kinds) identifier fuzzyMatch

/-! ## Cancellation (`signal.aborted` polled at each delimiter match) -/

def abortMsgIndexer : LStr := "Theorem indexing was aborted".toList

/-- The per-match cancellation poll of a scanning loop: before each match is
processed the (constant) signal is consulted; an aborted signal raises. -/
def checkedList {α : Type} (aborted : Bool) (msg : LStr) : List α → Except LStr (List α)
  | [] => .ok []
  | x :: xs =>
    if aborted then .error msg
    else match checkedList aborted msg xs with
      | .ok r => .ok (x :: r)
      | .error e => .error e

/-- The full result of `TheoremIndexerTool.indexTheorems` (summary statistics
aside): the enriched, dependency-annotated block list and the index. -/
structure TheoremIndexingResult where
  theorems : List IndexedTheorem
  index : TheoremIndex
  deriving Repr, DecidableEq

/-- `TheoremIndexerTool.indexTheorems`: both scanning loops poll the signal at
each match, then `buildIndex` runs; the returned `theorems` list is the array
whose objects `buildIndex` annotated in place. -/
def indexTheorems (content path : LStr) (kinds : List LStr)
    (extractRefs extractSyms buildDeps : Bool) (aborted : Bool) :
    Except LStr TheoremIndexingResult :=
  match checkedList aborted abortMsgIndexer (scanOpens kinds content) with
  | .error e => .error e
  | .ok opens =>
    match checkedList aborted abortMsgIndexer (scanCloses content) with
    | .error e => .error e
    | .ok closes =>
      let blocks := ((matchEnvs closes opens).enum).map
        (fun p => mkIndexedTheorem content path extractRefs extractSyms p.1 p.2)
      let (idx, recs) := buildIndex blocks buildDeps
      .ok { theorems := recs, index := idx }

/-! ## Definitions supporting the claims: well-formedness predicates,
component views of the index loops, spec-side comparison definitions and
the concrete documents of the counterexamples and witnesses -/

instance : Inhabited OpenEvt :=
  ⟨{ type := [], name := none, label := none, startLine := 0, startIndex := 0 }⟩

instance : Inhabited CloseEvt :=
  ⟨{ typ := [], endIndex := 0, matchLen := 0, endLine := 0 }⟩

instance : Inhabited ProofResult :=
  ⟨{ type := [], name := none, label := none, statement := [], proof := none, filePath := [],
     lineNumber := 0, endLineNumber := 0, proofStartLine := none, proofEndLine := none,
     rawContent := [], rawProofContent := none, hasProof := false }⟩

/-- Modelled from the spec's words, for comparison only (not part of the
implementation): the distinct arguments of the two cross-reference commands
ordered by first occurrence in the text, both commands scanned together in
document order. -/
def refsDocOrderSpec (content : LStr) : List LStr :=
  dedupFirst (go (content.length + 1) content)
where
  go : Nat → LStr → List LStr
    | 0, _ => []
    | _ + 1, [] => []
    | fuel + 1, s@(_ :: cs) =>
      if startsWithL ("\\ref\x7b".toList) s then
        let run := (s.drop 5).takeWhile (fun x => !(x == '}'))
        if !run.isEmpty && ((s.drop 5).drop run.length).headD ' ' == '}' then
          run :: go fuel (s.drop (5 + run.length + 1))
        else go fuel cs
      else if startsWithL ("\\eqref\x7b".toList) s then
        let run := (s.drop 7).takeWhile (fun x => !(x == '}'))
        if !run.isEmpty && ((s.drop 7).drop run.length).headD ' ' == '}' then
          run :: go fuel (s.drop (7 + run.length + 1))
        else go fuel cs
      else go fuel cs

/-- The two-block document of the C6 counterexample: two blocks whose opening
delimiters carry the same brace-group label `L`. -/
def dupLabelDoc : LStr :=
  "\\begin{theorem}{L}A\\end{theorem}\\begin{lemma}{L}B\\end{lemma}".toList

def dupLabelBlocks : List IndexedTheorem :=
  indexTheoremsBlocks dupLabelDoc ("doc.tex".toList) defaultTheoremTypes true true

/-- The one-block document of the C7 counterexample: no brace-group label on
the opening delimiter, but a `\label{foo}` command inside the body. -/
def bodyLabelDoc : LStr :=
  "\\begin{theorem}\\label{foo}x\\end{theorem}".toList

/-- The scanned delimiters pair up in order: the `i`-th closing delimiter has
the kind of the `i`-th opening delimiter (each open is closed by exactly one
matching close, no interleaving leftovers on either side). -/
def alignedTypes : List OpenEvt → List CloseEvt → Bool
  | [], [] => true
  | o :: os, c :: cs => decide (o.type = lcStr c.typ) && alignedTypes os cs
  | _, _ => false

/-- The scanned delimiters alternate in document order: each open sits before
its close, and each close ends before the next open starts (non-overlapping,
non-nested blocks). -/
def interleavedPos : List OpenEvt → List CloseEvt → Bool
  | [], [] => true
  | o :: os, c :: cs =>
    decide (o.startIndex < c.endIndex) &&
    (match os with
     | [] => true
     | o2 :: _ => decide (c.endIndex + c.matchLen ≤ o2.startIndex)) &&
    interleavedPos os cs
  | _, _ => false

/-- A one-candidate list for the C4 and C10 witnesses: a block whose label is
exactly `lab`. -/
def labWitnessBlock : ProofResult :=
  { type := "theorem".toList, name := none, label := some "lab".toList,
    statement := [], proof := none, filePath := [], lineNumber := 1, endLineNumber := 1,
    proofStartLine := none, proofEndLine := none, rawContent := [], rawProofContent := none,
    hasProof := false }

/-- Modelled from the spec's scoring rules, for comparison: the maximum over
the four non-statement rules (exact name 100, label containment 80, name
containment 70, kind containment 40). -/
def scoreNoOverlapSpec (query : LStr) (t : ProofResult) : ℚ :=
  max (max (max
    (if optNonempty t.name && (lcStr (t.name.getD []) = query) then 100 else 0)
    (if optNonempty t.label && containsSub (lcStr (t.label.getD [])) query then 80 else 0))
    (if optNonempty t.name && containsSub (lcStr (t.name.getD [])) query then 70 else 0))
    (if containsSub (lcStr t.type) query then 40 else 0)

/-- Modelled from the spec's scoring rules, for comparison: the statement
word-overlap rule, up to 60 scaled by the fraction of long query words found
in the lowercased statement. -/
def overlapScoreSpec (query : LStr) (t : ProofResult) : ℚ :=
  let words := splitWs query
  let wm := wordMatchCount words (lcStr t.statement)
  if 0 < wm then (wm : ℚ) / (words.length : ℚ) * 60 else 0

/-! ### Component views of the first `buildIndex` loop -/

/-- The `labelToId` writes of the first loop. -/
def labGo (m : List (LStr × LStr)) : List IndexedTheorem → List (LStr × LStr)
  | [] => m
  | t :: rest =>
    labGo (match t.label with
      | some lb => if lb.isEmpty then m else setAssoc lb t.id m
      | none => m) rest

/-- The `theorems` (identifier → array position) writes of the first loop. -/
def posGo (m : List (LStr × Nat)) (p : Nat) : List IndexedTheorem → List (LStr × Nat)
  | [] => m
  | t :: rest => posGo (setAssoc t.id p m) (p + 1) rest

/-- The dependency-graph initialization writes of the first loop. -/
def depGo (m : List (LStr × List LStr)) : List IndexedTheorem → List (LStr × List LStr)
  | [] => m
  | t :: rest => depGo (setAssoc t.id [] m) rest

/-- The last write into the position map: the greatest position (offset by
`p`) whose record's identifier is `k`. -/
def lastIdWrite (p : Nat) : List IndexedTheorem → LStr → Option Nat
  | [], _ => none
  | t :: rest, k =>
    match lastIdWrite (p + 1) rest k with
    | some r => some r
    | none => if t.id = k then some p else none

/-- The dependency loop only ever appends to a record's `dependencies` and
`dependents`; every other field is untouched. -/
def RecExtends (a b : IndexedTheorem) : Prop :=
  b.id = a.id ∧ b.references = a.references ∧
    (∃ l, b.dependencies = a.dependencies ++ l) ∧ (∃ l, b.dependents = a.dependents ++ l)

/-- One dependency-loop step only grows the state: array length and record
identities are stable, and the graph entries only gain elements. -/
def StateExtends (s s' : DepState) : Prop :=
  s'.recs.length = s.recs.length ∧
    (∀ j, RecExtends (s.recs.getD j default) (s'.recs.getD j default)) ∧
    (∀ k l, lookupAssoc k s.fwd = some l → ∃ l', lookupAssoc k s'.fwd = some (l ++ l')) ∧
    (∀ k l, lookupAssoc k s.rev = some l → ∃ l', lookupAssoc k s'.rev = some (l ++ l'))

/-- A two-block document for the C2 witness: the lemma's body references
the theorem through the label `t1` of the opening delimiter's brace group. -/
def depWitnessDoc : LStr :=
  "\\begin{theorem}{t1}A\\end{theorem}\\begin{lemma}{t2}B uses \\ref{t1}\\end{lemma}".toList

def depWitnessBlocks : List IndexedTheorem :=
  indexTheoremsBlocks depWitnessDoc ("doc.tex".toList) defaultTheoremTypes true true

/-! ## Supporting lemmas -/

theorem qmax_eq_max (a b : ℚ) : qmax a b = max a b := by
  rw [qmax, max_def]


theorem startsWithL_refl (s : LStr) : startsWithL s s = true := by
  induction s with
  | nil => rfl
  | cons c cs ih => simp [startsWithL, ih]

theorem containsSub_self (s : LStr) : containsSub s s = true := by
  unfold containsSub
  rw [List.any_eq_true]
  exact ⟨0, by simp [List.mem_range], by simpa using startsWithL_refl s⟩

theorem dedupFirst_go_mem (xs : List LStr) :
    ∀ (seen : List LStr) (x : LStr), x ∈ dedupFirst.go seen xs ↔ x ∈ xs ∧ x ∉ seen := by
  induction xs with
  | nil => intro seen x; simp [dedupFirst.go]
  | cons y ys ih =>
    intro seen x
    by_cases hy : y ∈ seen
    · rw [dedupFirst.go, if_pos hy, ih]
      constructor
      · rintro ⟨hx, hns⟩; exact ⟨List.mem_cons_of_mem _ hx, hns⟩
      · rintro ⟨hx, hns⟩
        rcases List.mem_cons.mp hx with h | h
        · exact absurd (h ▸ hy) hns
        · exact ⟨h, hns⟩
    · rw [dedupFirst.go, if_neg hy]
      constructor
      · intro hx
        rcases List.mem_cons.mp hx with h | h
        · exact ⟨h ▸ List.mem_cons_self y ys, h ▸ hy⟩
        · have := (ih (y :: seen) x).mp h
          exact ⟨List.mem_cons_of_mem _ this.1, fun hs => this.2 (List.mem_cons_of_mem _ hs)⟩
      · rintro ⟨hx, hns⟩
        rcases List.mem_cons.mp hx with h | h
        · exact h ▸ List.mem_cons_self _ _
        · by_cases hxy : x = y
          · exact hxy ▸ List.mem_cons_self _ _
          · exact List.mem_cons_of_mem _ ((ih (y :: seen) x).mpr
              ⟨h, fun hs => (List.mem_cons.mp hs).elim hxy hns⟩)

theorem dedupFirst_go_nodup (xs : List LStr) :
    ∀ seen : List LStr, (dedupFirst.go seen xs).Nodup := by
  induction xs with
  | nil => intro seen; simp [dedupFirst.go]
  | cons y ys ih =>
    intro seen
    by_cases hy : y ∈ seen
    · rw [dedupFirst.go, if_pos hy]; exact ih seen
    · rw [dedupFirst.go, if_neg hy]
      refine List.nodup_cons.mpr ⟨?_, ih (y :: seen)⟩
      intro hmem
      exact ((dedupFirst_go_mem ys (y :: seen) y).mp hmem).2 (List.mem_cons_self _ _)

theorem dedupFirst_go_sublist (xs : List LStr) :
    ∀ seen : List LStr, (dedupFirst.go seen xs).Sublist xs := by
  induction xs with
  | nil => intro seen; simp [dedupFirst.go]
  | cons y ys ih =>
    intro seen
    by_cases hy : y ∈ seen
    · rw [dedupFirst.go, if_pos hy]; exact (ih seen).cons y
    · rw [dedupFirst.go, if_neg hy]; exact (ih (y :: seen)).cons₂ y

theorem dedupFirst_mem (xs : List LStr) (x : LStr) : x ∈ dedupFirst xs ↔ x ∈ xs := by
  rw [dedupFirst, dedupFirst_go_mem]
  simp

theorem dedupFirst_nodup (xs : List LStr) : (dedupFirst xs).Nodup :=
  dedupFirst_go_nodup xs []

theorem dedupFirst_sublist (xs : List LStr) : (dedupFirst xs).Sublist xs :=
  dedupFirst_go_sublist xs []

/-! ## Claims -/

/-- C3: on the dependency graph with exactly the edges `a→b`, `b→c`, `c→a`
(keys in insertion order `a, b, c`), `detectCyclicDependencies` returns the
single cycle `[a, b, c, a]` — the three identifiers in order with the first
repeated at the end, as the claim allows up to rotation. -/
theorem claim_C3_detectCycles_triangle :
    detectCyclicDependencies
      [("a".toList, ["b".toList]), ("b".toList, ["c".toList]), ("c".toList, ["a".toList])] =
      [["a".toList, "b".toList, "c".toList, "a".toList]] := by
  decide

/-- C9, counterexample: symbol extraction on `$\alpha + \beta$` does NOT
yield `{alpha, beta}`: the first pattern (`\\([a-zA-Z]+)`) contributes the
backslash-stripped command names, but the inline-math pattern's capture is
re-tokenized by `\\[a-zA-Z]+|[a-zA-Z]+|...`, whose first alternative keeps
the backslash, so `\alpha` and `\beta` are also in the result. -/
theorem claim_C9_counterexample :
    extractSymbols ("$\\alpha + \\beta$".toList) ≠ ["alpha".toList, "beta".toList] ∧
    ¬ (∀ s, s ∈ extractSymbols ("$\\alpha + \\beta$".toList) ↔
        s = "alpha".toList ∨ s = "beta".toList) := by
  constructor
  · decide
  · intro h
    have := (h "\\alpha".toList).mp (by decide)
    rcases this with h' | h' <;> simp at h'

/-- C9, amended: symbol extraction on `$\alpha + \beta$` yields exactly
`{\alpha, \beta, alpha, beta}` — each command once with and once without its
backslash prefix — deduplicated and sorted lexicographically (the code-unit
order puts the backslashed tokens first). -/
theorem claim_C9_amended :
    extractSymbols ("$\\alpha + \\beta$".toList) =
      ["\\alpha".toList, "\\beta".toList, "alpha".toList, "beta".toList] := by
  decide

/-- C8, counterexample: on `\eqref{b}\ref{a}` the reference extractor returns
`["a", "b"]` — all `\ref` arguments are collected before any `\eqref`
argument — not the first-seen document order `["b", "a"]` the claim
demands. -/
theorem claim_C8_counterexample :
    extractReferences ("\\eqref{b}\\ref{a}".toList) ≠
      refsDocOrderSpec ("\\eqref{b}\\ref{a}".toList) ∧
    extractReferences ("\\eqref{b}\\ref{a}".toList) = ["a".toList, "b".toList] ∧
    refsDocOrderSpec ("\\eqref{b}\\ref{a}".toList) = ["b".toList, "a".toList] := by
  refine ⟨?_, by decide, by decide⟩
  decide

/-- C8, amended: the reference extractor returns the distinct set of
arguments of `\ref` and `\eqref` commands appearing anywhere in the text;
the order is all `\ref` arguments (in document order) followed by the
not-yet-seen `\eqref` arguments (in document order): the result is a
duplicate-free sublist of that concatenation containing exactly the
arguments of the two commands. -/
theorem claim_C8_amended (content : LStr) :
    extractReferences content =
      dedupFirst (scanCmdArgs ("\\ref\x7b".toList) content ++ scanCmdArgs ("\\eqref\x7b".toList) content) ∧
    (extractReferences content).Nodup ∧
    (∀ s, s ∈ extractReferences content ↔
      s ∈ scanCmdArgs ("\\ref\x7b".toList) content ∨ s ∈ scanCmdArgs ("\\eqref\x7b".toList) content) ∧
    (extractReferences content).Sublist
      (scanCmdArgs ("\\ref\x7b".toList) content ++ scanCmdArgs ("\\eqref\x7b".toList) content) := by
  refine ⟨rfl, dedupFirst_nodup _, ?_, dedupFirst_sublist _⟩
  intro s
  rw [extractReferences, dedupFirst_mem, List.mem_append]

/-- C6, counterexample: with two blocks sharing label `L`, both blocks get
identifier `L` (`generateTheoremId` prefers the label), so identifiers are
NOT unique, and the earlier block does NOT remain in the identifier→Block map
under a kind/ordinal identifier: it is overwritten at key `L` and reachable
under no key at all (`theoremsPos` maps `L` to position 1, the later block,
and has no other entry). -/
theorem claim_C6_counterexample :
    (dupLabelBlocks.map (fun t => t.id) = ["L".toList, "L".toList]) ∧
    lookupAssoc ("theorem_1".toList) (buildIndex dupLabelBlocks true).1.theoremsPos = none ∧
    (buildIndex dupLabelBlocks true).1.theoremsPos = [("L".toList, 1)] := by
  refine ⟨by decide, by decide, by decide⟩

/-- C7, counterexample: the body-`\label` fallback exists only in
`GetProofTool.extractAllTheorems`; `TheoremIndexerTool.indexTheorems` (and
`TheoremExtractorTool.extractTheorems`, which builds its records the same
way) leaves the label empty for the same document, so the claimed behavior
does not hold in every scanning surface. -/
theorem claim_C7_counterexample :
    ((extractAllTheorems bodyLabelDoc ("doc.tex".toList) defaultProofSearchTypes).map
      (fun t => t.label) = [some "foo".toList]) ∧
    ((indexTheoremsBlocks bodyLabelDoc ("doc.tex".toList) defaultTheoremTypes true true).map
      (fun t => t.label) = [none]) := by
  refine ⟨by decide, by decide⟩

/-! ## Well-formed documents and claim C1 -/

theorem alignedTypes_length :
    ∀ (os : List OpenEvt) (cs : List CloseEvt), alignedTypes os cs = true → os.length = cs.length := by
  intro os
  induction os with
  | nil => intro cs h; cases cs with
    | nil => rfl
    | cons c cs => simp [alignedTypes] at h
  | cons o os ih =>
    intro cs h
    cases cs with
    | nil => simp [alignedTypes] at h
    | cons c cs =>
      simp only [alignedTypes, Bool.and_eq_true] at h
      simp [ih cs h.2]

/-- Under alignment the matching loop pairs the delimiter streams pointwise. -/
theorem matchEnvs_aligned :
    ∀ (os : List OpenEvt) (cs : List CloseEvt), alignedTypes os cs = true →
      matchEnvs cs os = os.zip cs := by
  intro os
  induction os with
  | nil =>
    intro cs h
    cases cs with
    | nil => rfl
    | cons c cs => simp [alignedTypes] at h
  | cons o os ih =>
    intro cs h
    cases cs with
    | nil => simp [alignedTypes] at h
    | cons c cs =>
      simp only [alignedTypes, Bool.and_eq_true, decide_eq_true_eq] at h
      rw [matchEnvs, findOpen, if_pos h.1]
      simp only []
      rw [ih cs h.2]
      rfl

theorem enumFrom_map_fst_succ (l : List (OpenEvt × CloseEvt)) :
    ∀ n, (List.enumFrom n l).map (fun pr => pr.1 + 1) = List.range' (n + 1) l.length := by
  induction l with
  | nil => intro n; rfl
  | cons x xs ih =>
    intro n
    simp only [List.enumFrom, List.map_cons, List.length_cons, List.range'_succ]
    rw [ih (n + 1)]

/-- C1: for every document whose scanned delimiters form well-formed,
non-overlapping, non-nested blocks of recognized kinds (the `i`-th open has
the kind of the `i`-th close and positions alternate), the scanning stage of
`indexTheorems` returns exactly one block per open/close pair, listed in
document order of the closing delimiters (the `i`-th block is built from the
`i`-th pair), with ordinal `index` fields `1..N` in that order. -/
theorem claim_C1_scan_wellformed (content path : LStr) (kinds : List LStr)
    (extractRefs extractSyms : Bool)
    (hA : alignedTypes (scanOpens kinds content) (scanCloses content) = true)
    (_hI : interleavedPos (scanOpens kinds content) (scanCloses content) = true) :
    (indexTheoremsBlocks content path kinds extractRefs extractSyms).length =
      (scanCloses content).length ∧
    (indexTheoremsBlocks content path kinds extractRefs extractSyms).map (fun t => t.index) =
      List.range' 1 (scanCloses content).length ∧
    indexTheoremsBlocks content path kinds extractRefs extractSyms =
      ((scanOpens kinds content).zip (scanCloses content)).enum.map
        (fun pr => mkIndexedTheorem content path extractRefs extractSyms pr.1 pr.2) := by
  have hlen := alignedTypes_length _ _ hA
  have hz : ((scanOpens kinds content).zip (scanCloses content)).length =
      (scanCloses content).length := by
    rw [List.length_zip, hlen, Nat.min_self]
  have hmain : indexTheoremsBlocks content path kinds extractRefs extractSyms =
      ((scanOpens kinds content).zip (scanCloses content)).enum.map
        (fun pr => mkIndexedTheorem content path extractRefs extractSyms pr.1 pr.2) := by
    rw [indexTheoremsBlocks, matchEnvs_aligned _ _ hA]
  refine ⟨?_, ?_, hmain⟩
  · rw [hmain, List.length_map, List.enum_length, hz]
  · rw [hmain, List.map_map]
    have : ((fun t : IndexedTheorem => t.index) ∘
        fun pr : Nat × (OpenEvt × CloseEvt) =>
          mkIndexedTheorem content path extractRefs extractSyms pr.1 pr.2) =
        fun pr : Nat × (OpenEvt × CloseEvt) => pr.1 + 1 := by
      funext pr; rfl
    rw [this, List.enum, enumFrom_map_fst_succ, hz]

/-- Witness for C1 at a concrete two-block document. -/
theorem claim_C1_scan_wellformed_witness :
    (alignedTypes
        (scanOpens defaultTheoremTypes
          ("\\begin{theorem}A\\end{theorem}\\begin{lemma}B\\end{lemma}".toList))
        (scanCloses ("\\begin{theorem}A\\end{theorem}\\begin{lemma}B\\end{lemma}".toList)) = true) ∧
    (indexTheoremsBlocks ("\\begin{theorem}A\\end{theorem}\\begin{lemma}B\\end{lemma}".toList)
        ("doc.tex".toList) defaultTheoremTypes true true).map (fun t => t.index) =
      List.range' 1 2 := by
  refine ⟨by decide, ?_⟩
  have h := claim_C1_scan_wellformed
    ("\\begin{theorem}A\\end{theorem}\\begin{lemma}B\\end{lemma}".toList)
    ("doc.tex".toList) defaultTheoremTypes true true (by decide) (by decide)
  have hlen : (scanCloses ("\\begin{theorem}A\\end{theorem}\\begin{lemma}B\\end{lemma}".toList)).length = 2 := by
    decide
  rw [hlen] at h
  exact h.2.1

/-! ## Claim C5: cancellation -/

theorem checkedList_true {α : Type} (msg : LStr) (l : List α) (h : l ≠ []) :
    checkedList true msg l = .error msg := by
  cases l with
  | nil => exact absurd rfl h
  | cons x xs => rfl

theorem checkedList_false {α : Type} (msg : LStr) (l : List α) :
    checkedList false msg l = .ok l := by
  induction l with
  | nil => rfl
  | cons x xs ih => rw [checkedList, if_neg (by simp), ih]

theorem checkedList_true_ok {α : Type} (msg : LStr) (l : List α) (r : List α)
    (h : checkedList true msg l = .ok r) : l = [] ∧ r = [] := by
  cases l with
  | nil => exact ⟨rfl, by simpa [checkedList] using h.symm⟩
  | cons x xs => simp [checkedList] at h

/-- C5: with the cancellation signal aborted, the scan raises the
cancellation error at the first delimiter match (of either pass), and a
normal return is possible only for a document with no delimiter matches at
all — in which case the result is exactly the complete result the unaborted
scan produces, so a partial index is never returned to the caller. -/
theorem claim_C5_cancellation (content path : LStr) (kinds : List LStr)
    (extractRefs extractSyms buildDeps : Bool) :
    (scanOpens kinds content ≠ [] ∨ scanCloses content ≠ [] →
      indexTheorems content path kinds extractRefs extractSyms buildDeps true =
        .error abortMsgIndexer) ∧
    (∀ res, indexTheorems content path kinds extractRefs extractSyms buildDeps true = .ok res →
      indexTheorems content path kinds extractRefs extractSyms buildDeps false = .ok res) := by
  constructor
  · intro h
    rcases h with h | h
    · rw [indexTheorems, checkedList_true _ _ h]
    · cases ho : scanOpens kinds content with
      | nil => rw [indexTheorems, ho, checkedList, checkedList_true _ _ h]
      | cons o os => rw [indexTheorems, ho, checkedList_true _ _ (by simp)]
  · intro res h
    rw [indexTheorems] at h
    cases ho : checkedList true abortMsgIndexer (scanOpens kinds content) with
    | error e => rw [ho] at h; exact absurd h (by simp)
    | ok opens =>
      rw [ho] at h
      cases hc : checkedList true abortMsgIndexer (scanCloses content) with
      | error e => rw [hc] at h; exact absurd h (by simp)
      | ok closes =>
        rw [hc] at h
        obtain ⟨ho1, ho2⟩ := checkedList_true_ok _ _ _ ho
        obtain ⟨hc1, hc2⟩ := checkedList_true_ok _ _ _ hc
        rw [indexTheorems, ho1, hc1, checkedList_false, checkedList_false]
        subst ho2
        subst hc2
        exact h

/-- Witness for C5: a document with delimiters aborts with the cancellation
error when the signal is set. -/
theorem claim_C5_cancellation_witness :
    (scanOpens defaultTheoremTypes ("\\begin{theorem}x\\end{theorem}".toList) ≠ [] ∨
      scanCloses ("\\begin{theorem}x\\end{theorem}".toList) ≠ []) ∧
    indexTheorems ("\\begin{theorem}x\\end{theorem}".toList) ("doc.tex".toList)
      defaultTheoremTypes true true true true = .error abortMsgIndexer := by
  refine ⟨Or.inl (by decide), ?_⟩
  exact (claim_C5_cancellation ("\\begin{theorem}x\\end{theorem}".toList) ("doc.tex".toList)
    defaultTheoremTypes true true true).1 (Or.inl (by decide))

/-! ## Claims C4 and C10: the fuzzy matcher -/

theorem labelEqQ_cond (q : LStr) (t : ProofResult) (h : labelEqQ t q = true) :
    (optNonempty t.label && containsSub (lcStr (t.label.getD [])) q) = true := by
  unfold labelEqQ at h
  cases hll : t.label with
  | none => rw [hll] at h; simp at h
  | some l =>
    rw [hll] at h
    simp only [Bool.and_eq_true, decide_eq_true_eq] at h
    simp only [optNonempty, hll, Option.getD_some, Bool.and_eq_true]
    exact ⟨h.1, by rw [h.2]; exact containsSub_self q⟩

set_option maxHeartbeats 2000000 in
theorem scoreOf_ge_of_labelEq (fuzzy : Bool) (q : LStr) (t : ProofResult)
    (h : labelEqQ t q = true) : (80 : ℚ) ≤ scoreOf fuzzy q t := by
  have hcond := labelEqQ_cond q t h
  simp only [scoreOf, qmax_eq_max]
  rw [hcond]
  simp only [if_true]
  refine le_trans ?_ (le_max_left _ _)
  split_ifs <;>
    first
      | exact le_sup_of_le_left (le_sup_of_le_left le_sup_right)
      | exact le_sup_of_le_left le_sup_right

theorem findBestMatchAux_sound (q : LStr) (fuzzy : Bool) :
    ∀ (ts : List ProofResult) (best : Option ProofResult) (bs : ℚ),
      (∀ u, best = some u → scoreOf fuzzy q u = bs) →
      ∀ t, findBestMatchAux q fuzzy ts best bs = some t → 30 < scoreOf fuzzy q t := by
  intro ts
  induction ts with
  | nil =>
    intro best bs hinv t h
    rw [findBestMatchAux] at h
    by_cases h30 : (30 : ℚ) < bs
    · rw [if_pos h30] at h
      rw [hinv t h]
      exact h30
    · rw [if_neg h30] at h
      exact absurd h (by simp)
  | cons r rs ih =>
    intro best bs hinv t h
    rw [findBestMatchAux] at h
    by_cases hlab : labelEqQ r q = true
    · rw [if_pos hlab] at h
      have ht : r = t := by injection h
      subst ht
      calc (30 : ℚ) < 80 := by norm_num
        _ ≤ scoreOf fuzzy q r := scoreOf_ge_of_labelEq fuzzy q r hlab
    · rw [if_neg hlab] at h
      simp only [] at h
      by_cases hgt : bs < scoreOf fuzzy q r
      · rw [if_pos hgt] at h
        exact ih (some r) (scoreOf fuzzy q r) (fun u hu => by injection hu with hu; rw [hu]) t h
      · rw [if_neg hgt] at h
        exact ih best bs hinv t h

/-- C4: the best-match search accepts a candidate only when its computed
score (the maximum over the scoring rules, which for the exact-label
short-circuit includes the label-containment rule's 80) strictly exceeds 30;
when no candidate is accepted, `findProof` reports a structured not-found
result whose suggestion list is the first five candidates in document order
— at most 5 even when more exist — and no exception arises (every function
here is total). -/
theorem claim_C4_threshold (content identifier : LStr) (ts : List ProofResult) (fuzzy : Bool) :
    (∀ t, findBestMatch ts identifier fuzzy = some t →
      30 < scoreOf fuzzy (lcStr (jsTrim identifier)) t) ∧
    (findBestMatch ts identifier fuzzy = none →
      (findProofFromTheorems content ts identifier fuzzy).found = false ∧
      (findProofFromTheorems content ts identifier fuzzy).potentialMatches = ts.take 5 ∧
      (findProofFromTheorems content ts identifier fuzzy).potentialMatches.length ≤ 5) := by
  constructor
  · intro t h
    exact findBestMatchAux_sound (lcStr (jsTrim identifier)) fuzzy ts none 0
      (fun u hu => by simp at hu) t h
  · intro h
    rw [findProofFromTheorems, h]
    refine ⟨rfl, rfl, ?_⟩
    simp [List.length_take_le 5 ts]

/-- Witness for C4: a concrete accepted match scores above the threshold, and
a concrete not-found query yields at most five suggestions. -/
theorem claim_C4_threshold_witness :
    (findBestMatch [labWitnessBlock] ("lab".toList) true = some labWitnessBlock) ∧
    30 < scoreOf true (lcStr (jsTrim ("lab".toList))) labWitnessBlock ∧
    ((findBestMatch ([] : List ProofResult) ("zzz".toList) true = none) ∧
      (findProofFromTheorems [] ([] : List ProofResult) ("zzz".toList) true).potentialMatches.length ≤ 5) := by
  refine ⟨by decide, ?_, by decide, ?_⟩
  · exact (claim_C4_threshold [] ("lab".toList) [labWitnessBlock] true).1 _ (by decide)
  · exact ((claim_C4_threshold [] ("zzz".toList) ([] : List ProofResult) true).2 (by decide)).2.2

theorem findBestMatchAux_label_found (q : LStr) (fz : Bool) :
    ∀ (ts : List ProofResult) (best : Option ProofResult) (bs : ℚ),
      (∃ t ∈ ts, labelEqQ t q = true) →
      ∃ u, findBestMatchAux q fz ts best bs = some u ∧ labelEqQ u q = true := by
  intro ts
  induction ts with
  | nil =>
    intro best bs h
    obtain ⟨t, ht, _⟩ := h
    exact absurd ht (by simp)
  | cons r rs ih =>
    intro best bs h
    rw [findBestMatchAux]
    by_cases hlab : labelEqQ r q = true
    · exact ⟨r, by rw [if_pos hlab], hlab⟩
    · rw [if_neg hlab]
      simp only []
      obtain ⟨t, ht, hteq⟩ := h
      have htrs : t ∈ rs := by
        rcases List.mem_cons.mp ht with h' | h'
        · exact absurd (h' ▸ hteq) hlab
        · exact h'
      by_cases hgt : bs < scoreOf fz q r
      · rw [if_pos hgt]; exact ih (some r) (scoreOf fz q r) ⟨t, htrs, hteq⟩
      · rw [if_neg hgt]; exact ih best bs ⟨t, htrs, hteq⟩

/-- C10: with the fuzzy flag off only the statement word-overlap rule is
disabled — the loop's score is exactly the maximum of the four remaining
rules, while with the flag on it is that same maximum joined with the
overlap rule — and in particular a candidate whose (nonempty) label equals
the normalized query case-insensitively is still returned when fuzzy
matching is off. -/
theorem claim_C10_fuzzy_off (ts : List ProofResult) (identifier : LStr) :
    (∀ (q : LStr) (t : ProofResult), scoreOf false q t = scoreNoOverlapSpec q t) ∧
    (∀ (q : LStr) (t : ProofResult),
      scoreOf true q t = max (scoreNoOverlapSpec q t) (overlapScoreSpec q t)) ∧
    ((∃ t ∈ ts, labelEqQ t (lcStr (jsTrim identifier)) = true) →
      ∃ u, findBestMatch ts identifier false = some u ∧
        labelEqQ u (lcStr (jsTrim identifier)) = true) := by
  refine ⟨?_, ?_, ?_⟩
  · intro q t
    simp only [scoreOf, qmax_eq_max, Bool.false_eq_true, if_false, scoreNoOverlapSpec]
  · intro q t
    simp only [scoreOf, qmax_eq_max, if_true, scoreNoOverlapSpec, overlapScoreSpec]
    by_cases hwm : 0 < wordMatchCount (splitWs q) (lcStr t.statement)
    · rw [if_pos hwm, if_pos hwm, sup_right_comm]
    · rw [if_neg hwm, if_neg hwm]
      exact (max_eq_left (le_max_of_le_right (by split_ifs <;> norm_num))).symm
  · intro h
    exact findBestMatchAux_label_found (lcStr (jsTrim identifier)) false ts none 0 h

/-- Witness for C10: the label-equal candidate is returned with fuzzy
matching off, and the two score decompositions hold at a concrete rule mix. -/
theorem claim_C10_fuzzy_off_witness :
    (∃ u, findBestMatch [labWitnessBlock] ("lab".toList) false = some u ∧
      labelEqQ u (lcStr (jsTrim ("lab".toList))) = true) ∧
    scoreOf false ("lab".toList) labWitnessBlock =
      scoreNoOverlapSpec ("lab".toList) labWitnessBlock ∧
    scoreOf true ("lab".toList) labWitnessBlock =
      max (scoreNoOverlapSpec ("lab".toList) labWitnessBlock)
        (overlapScoreSpec ("lab".toList) labWitnessBlock) := by
  refine ⟨?_, ?_, ?_⟩
  · exact (claim_C10_fuzzy_off [labWitnessBlock] ("lab".toList)).2.2
      ⟨labWitnessBlock, List.mem_cons_self _ _, by decide⟩
  · exact (claim_C10_fuzzy_off [labWitnessBlock] ("lab".toList)).1 _ _
  · exact (claim_C10_fuzzy_off [labWitnessBlock] ("lab".toList)).2.1 _ _

/-! ## Association-map lemmas for claims C2 and C6 -/

theorem lookupAssoc_setAssoc {β : Type} (k k' : LStr) (v : β) (m : List (LStr × β)) :
    lookupAssoc k (setAssoc k' v m) = if k' = k then some v else lookupAssoc k m := by
  induction m with
  | nil =>
    by_cases h : k' = k
    · simp [setAssoc, lookupAssoc, h]
    · simp [setAssoc, lookupAssoc, h]
  | cons e rest ih =>
    obtain ⟨ke, ve⟩ := e
    by_cases h1 : ke = k'
    · subst h1
      by_cases h2 : ke = k
      · simp [setAssoc, lookupAssoc, h2]
      · simp [setAssoc, lookupAssoc, h2]
    · by_cases h2 : ke = k
      · subst h2
        rw [setAssoc, if_neg h1, lookupAssoc, if_pos rfl, lookupAssoc, if_pos rfl,
          if_neg (fun h => h1 h.symm)]
      · rw [setAssoc, if_neg h1, lookupAssoc, if_neg h2, lookupAssoc, if_neg h2, ih]

theorem lookupAssoc_pushAssoc (k k' v : LStr) (m : List (LStr × List LStr)) :
    lookupAssoc k (pushAssoc k' v m) =
      if k' = k then (lookupAssoc k m).map (fun l => l ++ [v]) else lookupAssoc k m := by
  induction m with
  | nil =>
    by_cases h : k' = k
    · simp [pushAssoc, lookupAssoc, h]
    · simp [pushAssoc, lookupAssoc, h]
  | cons e rest ih =>
    obtain ⟨ke, ve⟩ := e
    by_cases h1 : ke = k'
    · subst h1
      by_cases h2 : ke = k
      · simp [pushAssoc, lookupAssoc, h2]
      · simp [pushAssoc, lookupAssoc, h2]
    · by_cases h2 : ke = k
      · subst h2
        rw [pushAssoc, if_neg h1, lookupAssoc, if_pos rfl, lookupAssoc, if_pos rfl,
          if_neg (fun h => h1 h.symm)]
      · rw [pushAssoc, if_neg h1, lookupAssoc, if_neg h2, lookupAssoc, if_neg h2, ih]

theorem modIdx_length {α : Type} (f : α → α) : ∀ (l : List α) (p : Nat),
    (modIdx p f l).length = l.length := by
  intro l
  induction l with
  | nil => intro p; cases p <;> rfl
  | cons x xs ih =>
    intro p
    cases p with
    | zero => rfl
    | succ q => simp [modIdx, ih]

theorem modIdx_getD {α : Type} (f : α → α) (d : α) : ∀ (l : List α) (p j : Nat),
    (modIdx p f l).getD j d =
      if j = p ∧ p < l.length then f (l.getD j d) else l.getD j d := by
  intro l
  induction l with
  | nil => intro p j; cases p <;> simp [modIdx]
  | cons x xs ih =>
    intro p j
    cases p with
    | zero =>
      cases j with
      | zero => simp [modIdx]
      | succ j' => simp [modIdx]
    | succ q =>
      cases j with
      | zero => simp [modIdx]
      | succ j' =>
        simp only [modIdx, List.getD_cons_succ, List.length_cons]
        rw [ih q j']
        by_cases h : j' = q ∧ q < xs.length
        · rw [if_pos h, if_pos (by omega)]
        · rw [if_neg h, if_neg (by omega)]

theorem indexBaseGo_labelToId : ∀ (ts : List IndexedTheorem) (acc : TheoremIndex) (p : Nat),
    (indexBaseGo acc p ts).labelToId = labGo acc.labelToId ts := by
  intro ts
  induction ts with
  | nil => intro acc p; rfl
  | cons t rest ih => intro acc p; rw [indexBaseGo, ih, labGo]; rfl

theorem indexBaseGo_theoremsPos : ∀ (ts : List IndexedTheorem) (acc : TheoremIndex) (p : Nat),
    (indexBaseGo acc p ts).theoremsPos = posGo acc.theoremsPos p ts := by
  intro ts
  induction ts with
  | nil => intro acc p; rfl
  | cons t rest ih => intro acc p; rw [indexBaseGo, ih, posGo]; rfl

theorem indexBaseGo_depGraph : ∀ (ts : List IndexedTheorem) (acc : TheoremIndex) (p : Nat),
    (indexBaseGo acc p ts).dependencyGraph = depGo acc.dependencyGraph ts := by
  intro ts
  induction ts with
  | nil => intro acc p; rfl
  | cons t rest ih => intro acc p; rw [indexBaseGo, ih, depGo]; rfl

theorem indexBaseGo_revGraph : ∀ (ts : List IndexedTheorem) (acc : TheoremIndex) (p : Nat),
    (indexBaseGo acc p ts).reverseDependencyGraph = depGo acc.reverseDependencyGraph ts := by
  intro ts
  induction ts with
  | nil => intro acc p; rfl
  | cons t rest ih => intro acc p; rw [indexBaseGo, ih, depGo]; rfl

theorem lookup_posGo (k : LStr) : ∀ (ts : List IndexedTheorem) (p : Nat) (m : List (LStr × Nat)),
    lookupAssoc k (posGo m p ts) =
      match lastIdWrite p ts k with
      | some r => some r
      | none => lookupAssoc k m := by
  intro ts
  induction ts with
  | nil => intro p m; rfl
  | cons t rest ih =>
    intro p m
    rw [posGo, ih, lastIdWrite]
    cases lastIdWrite (p + 1) rest k with
    | some r => rfl
    | none =>
      simp only []
      rw [lookupAssoc_setAssoc]
      by_cases h : t.id = k
      · rw [if_pos h, if_pos h]
      · rw [if_neg h, if_neg h]

theorem lastIdWrite_isSome_of_mem : ∀ (ts : List IndexedTheorem) (p q : Nat) (k : LStr),
    q < ts.length → (ts.getD q default).id = k → (lastIdWrite p ts k).isSome := by
  intro ts
  induction ts with
  | nil => intro p q k hq _; simp at hq
  | cons t rest ih =>
    intro p q k hq hid
    rw [lastIdWrite]
    cases q with
    | zero =>
      cases hrec : lastIdWrite (p + 1) rest k with
      | some r => rfl
      | none =>
        simp only []
        rw [if_pos (by simpa using hid)]
        rfl
    | succ q' =>
      have := ih (p + 1) q' k (by simpa using hq) (by simpa using hid)
      cases hrec : lastIdWrite (p + 1) rest k with
      | some r => rfl
      | none => rw [hrec] at this; simp at this

theorem lastIdWrite_sound : ∀ (ts : List IndexedTheorem) (p : Nat) (k : LStr) (r : Nat),
    lastIdWrite p ts k = some r →
      p ≤ r ∧ r - p < ts.length ∧ (ts.getD (r - p) default).id = k ∧
        ∀ j, r - p < j → j < ts.length → (ts.getD j default).id ≠ k := by
  intro ts
  induction ts with
  | nil => intro p k r h; exact absurd h (by simp [lastIdWrite])
  | cons t rest ih =>
    intro p k r h
    rw [lastIdWrite] at h
    cases hrec : lastIdWrite (p + 1) rest k with
    | some r' =>
      rw [hrec] at h
      injection h with h
      subst h
      obtain ⟨h1, h2, h3, h4⟩ := ih (p + 1) k r' hrec
      refine ⟨by omega, by simp only [List.length_cons]; omega, ?_, ?_⟩
      · have heq : r' - p = (r' - (p + 1)) + 1 := by omega
        rw [heq, List.getD_cons_succ]
        exact h3
      · intro j hj1 hj2
        cases j with
        | zero => omega
        | succ j' =>
          rw [List.getD_cons_succ]
          exact h4 j' (by omega) (by simpa using hj2)
    | none =>
      rw [hrec] at h
      simp only [] at h
      by_cases ht : t.id = k
      · rw [if_pos ht] at h
        injection h with h
        subst h
        refine ⟨le_refl _, by simp, by simpa using ht, ?_⟩
        intro j hj1 hj2
        cases j with
        | zero => omega
        | succ j' =>
          rw [List.getD_cons_succ]
          intro hid
          have hsome := lastIdWrite_isSome_of_mem rest (p + 1) j' k (by simpa using hj2) hid
          rw [hrec] at hsome
          simp at hsome
      · rw [if_neg ht] at h
        exact absurd h (by simp)

theorem lastIdWrite_complete : ∀ (ts : List IndexedTheorem) (p q : Nat) (k : LStr),
    q < ts.length → (ts.getD q default).id = k →
      (∀ j, q < j → j < ts.length → (ts.getD j default).id ≠ k) →
      lastIdWrite p ts k = some (p + q) := by
  intro ts
  induction ts with
  | nil => intro p q k hq _ _; simp at hq
  | cons t rest ih =>
    intro p q k hq hid hlast
    rw [lastIdWrite]
    cases q with
    | zero =>
      have hnone : lastIdWrite (p + 1) rest k = none := by
        cases hrec : lastIdWrite (p + 1) rest k with
        | none => rfl
        | some r =>
          obtain ⟨h1, h2, h3, _⟩ := lastIdWrite_sound rest (p + 1) k r hrec
          exact absurd h3 (hlast (r - (p + 1) + 1) (by omega)
            (by simp only [List.length_cons]; omega))
      rw [hnone]
      simp only []
      rw [if_pos (by simpa using hid)]
      rfl
    | succ q' =>
      have hrec := ih (p + 1) q' k (by simpa using hq) (by simpa using hid)
        (fun j hj1 hj2 => by
          have := hlast (j + 1) (by omega) (by simp only [List.length_cons]; omega)
          simpa using this)
      rw [hrec]
      simp only []
      congr 1
      omega

/-- Every label-map value is the identifier of some record (together with the
record's label being the looked-up key). -/
theorem labGo_values (r v : LStr) : ∀ (ts : List IndexedTheorem) (m : List (LStr × LStr)),
    lookupAssoc r (labGo m ts) = some v →
      (∃ j, j < ts.length ∧ (ts.getD j default).id = v ∧ (ts.getD j default).label = some r) ∨
        lookupAssoc r m = some v := by
  intro ts
  induction ts with
  | nil => intro m h; exact Or.inr h
  | cons t rest ih =>
    intro m h
    rw [labGo] at h
    rcases ih _ h with ⟨j, hj, hjid, hjlab⟩ | hm
    · exact Or.inl ⟨j + 1, by simpa using hj, by simpa using hjid, by simpa using hjlab⟩
    · cases hl : t.label with
      | none => rw [hl] at hm; exact Or.inr hm
      | some lb =>
        rw [hl] at hm
        simp only [] at hm
        by_cases he : lb.isEmpty
        · rw [if_pos he] at hm; exact Or.inr hm
        · rw [if_neg he, lookupAssoc_setAssoc] at hm
          by_cases hlr : lb = r
          · rw [if_pos hlr] at hm
            injection hm with hm
            exact Or.inl ⟨0, by simp, by simpa using hm, by simpa [hlr] using hl⟩
          · rw [if_neg hlr] at hm; exact Or.inr hm

/-- A nonempty label that some record carries is a key of the label map. -/
theorem labGo_isSome (r : LStr) : ∀ (ts : List IndexedTheorem) (m : List (LStr × LStr)),
    (∃ j, j < ts.length ∧ (ts.getD j default).label = some r ∧ r.isEmpty = false) →
      (lookupAssoc r (labGo m ts)).isSome := by
  intro ts
  induction ts with
  | nil => intro m h; obtain ⟨j, hj, _⟩ := h; simp at hj
  | cons t rest ih =>
    intro m h
    obtain ⟨j, hj, hlab, hne⟩ := h
    rw [labGo]
    cases j with
    | succ j' => exact ih _ ⟨j', by simpa using hj, by simpa using hlab, hne⟩
    | zero =>
      simp only [List.getD_cons_zero] at hlab
      by_cases hmem : ∃ j, j < rest.length ∧ (rest.getD j default).label = some r ∧
          r.isEmpty = false
      · exact ih _ hmem
      · have : ∀ (m' : List (LStr × LStr)), (lookupAssoc r m').isSome →
            (lookupAssoc r (labGo m' rest)).isSome := by
          clear ih hmem hj
          induction rest with
          | nil => intro m' h'; exact h'
          | cons u us ihu =>
            intro m' h'
            rw [labGo]
            refine ihu _ ?_
            rcases hu : u.label with _ | lu
            · exact h'
            · simp only []
              by_cases hue : lu.isEmpty
              · rw [if_pos hue]; exact h'
              · rw [if_neg hue, lookupAssoc_setAssoc]
                by_cases hur : lu = r
                · rw [if_pos hur]; rfl
                · rw [if_neg hur]; exact h'
        refine this _ ?_
        rw [hlab]
        simp only []
        rw [if_neg (by intro he; rw [he] at hne; simp at hne)]
        rw [lookupAssoc_setAssoc, if_pos rfl]
        rfl

/-- Every record's identifier is a key of the (initialized) dependency graph. -/
theorem depGo_isSome (k : LStr) : ∀ (ts : List IndexedTheorem) (m : List (LStr × List LStr)),
    ((∃ j, j < ts.length ∧ (ts.getD j default).id = k) ∨ (lookupAssoc k m).isSome) →
      (lookupAssoc k (depGo m ts)).isSome := by
  intro ts
  induction ts with
  | nil =>
    intro m h
    rcases h with ⟨j, hj, _⟩ | h
    · simp at hj
    · exact h
  | cons t rest ih =>
    intro m h
    rw [depGo]
    rcases h with ⟨j, hj, hid⟩ | h
    · cases j with
      | zero =>
        refine ih _ (Or.inr ?_)
        rw [lookupAssoc_setAssoc, if_pos (by simpa using hid)]
        rfl
      | succ j' => exact ih _ (Or.inl ⟨j', by simpa using hj, by simpa using hid⟩)
    · refine ih _ (Or.inr ?_)
      rw [lookupAssoc_setAssoc]
      by_cases ht : t.id = k
      · rw [if_pos ht]; rfl
      · rw [if_neg ht]; exact h

/-! ### Monotonicity of the dependency-building loop -/

theorem recExtends_refl (a : IndexedTheorem) : RecExtends a a :=
  ⟨rfl, rfl, ⟨[], by simp⟩, ⟨[], by simp⟩⟩

theorem recExtends_trans {a b c : IndexedTheorem} (h1 : RecExtends a b) (h2 : RecExtends b c) :
    RecExtends a c := by
  obtain ⟨i1, r1, ⟨l1, d1⟩, ⟨m1, e1⟩⟩ := h1
  obtain ⟨i2, r2, ⟨l2, d2⟩, ⟨m2, e2⟩⟩ := h2
  exact ⟨i2.trans i1, r2.trans r1, ⟨l1 ++ l2, by rw [d2, d1, List.append_assoc]⟩,
    ⟨m1 ++ m2, by rw [e2, e1, List.append_assoc]⟩⟩

theorem stateExtends_refl (s : DepState) : StateExtends s s :=
  ⟨rfl, fun j => recExtends_refl _, fun k l h => ⟨[], by simpa using h⟩,
    fun k l h => ⟨[], by simpa using h⟩⟩

theorem stateExtends_trans {s1 s2 s3 : DepState}
    (h1 : StateExtends s1 s2) (h2 : StateExtends s2 s3) : StateExtends s1 s3 := by
  obtain ⟨hl1, hr1, hf1, hv1⟩ := h1
  obtain ⟨hl2, hr2, hf2, hv2⟩ := h2
  refine ⟨hl2.trans hl1, fun j => recExtends_trans (hr1 j) (hr2 j), ?_, ?_⟩
  · intro k l h
    obtain ⟨l', h'⟩ := hf1 k l h
    obtain ⟨l'', h''⟩ := hf2 k (l ++ l') h'
    exact ⟨l' ++ l'', by rw [h'', List.append_assoc]⟩
  · intro k l h
    obtain ⟨l', h'⟩ := hv1 k l h
    obtain ⟨l'', h''⟩ := hv2 k (l ++ l') h'
    exact ⟨l' ++ l'', by rw [h'', List.append_assoc]⟩

theorem pushAssoc_extends (k' v : LStr) (m : List (LStr × List LStr)) (k : LStr) (l : List LStr)
    (h : lookupAssoc k m = some l) :
    ∃ l', lookupAssoc k (pushAssoc k' v m) = some (l ++ l') := by
  rw [lookupAssoc_pushAssoc]
  by_cases hk : k' = k
  · rw [if_pos hk, h]
    exact ⟨[v], rfl⟩
  · rw [if_neg hk, h]
    exact ⟨[], by simp⟩

theorem modIdx_recExtends (f : IndexedTheorem → IndexedTheorem)
    (hf : ∀ t, RecExtends t (f t)) (l : List IndexedTheorem) (p j : Nat) :
    RecExtends (l.getD j default) ((modIdx p f l).getD j default) := by
  rw [modIdx_getD]
  by_cases h : j = p ∧ p < l.length
  · rw [if_pos h]; exact hf _
  · rw [if_neg h]; exact recExtends_refl _

theorem processRef_extends (l2i : List (LStr × LStr)) (tpos : List (LStr × Nat)) (p : Nat)
    (s : DepState) (r : LStr) : StateExtends s (processRef l2i tpos p s r) := by
  rw [processRef]
  cases hl : lookupAssoc r l2i with
  | none => exact stateExtends_refl s
  | some rid =>
    simp only []
    by_cases h1 : rid.isEmpty
    · rw [if_pos h1]; exact stateExtends_refl s
    · rw [if_neg h1]
      by_cases h2 : rid = (s.recs.getD p default).id
      · rw [if_pos h2]; exact stateExtends_refl s
      · rw [if_neg h2]
        have hdep : ∀ (t : IndexedTheorem),
            RecExtends t { t with dependencies := t.dependencies ++ [rid] } :=
          fun t => ⟨rfl, rfl, ⟨[rid], rfl⟩, ⟨[], by simp⟩⟩
        have hdept : ∀ (t : IndexedTheorem), RecExtends t
            { t with dependents := t.dependents ++ [(s.recs.getD p default).id] } :=
          fun t => ⟨rfl, rfl, ⟨[], by simp⟩, ⟨[(s.recs.getD p default).id], rfl⟩⟩
        cases hq : lookupAssoc rid tpos with
        | none =>
          refine ⟨by simp [modIdx_length], fun j => modIdx_recExtends _ hdep _ _ _, ?_, ?_⟩
          · intro k l h; exact pushAssoc_extends _ _ _ _ _ h
          · intro k l h; exact pushAssoc_extends _ _ _ _ _ h
        | some q =>
          refine ⟨by simp [modIdx_length], ?_, ?_, ?_⟩
          · intro j
            exact recExtends_trans (modIdx_recExtends _ hdep _ p j)
              (modIdx_recExtends _ hdept _ q j)
          · intro k l h; exact pushAssoc_extends _ _ _ _ _ h
          · intro k l h; exact pushAssoc_extends _ _ _ _ _ h

theorem foldl_extends {α : Type} (f : DepState → α → DepState)
    (hf : ∀ s x, StateExtends s (f s x)) :
    ∀ (l : List α) (s : DepState), StateExtends s (l.foldl f s) := by
  intro l
  induction l with
  | nil => intro s; exact stateExtends_refl s
  | cons x xs ih =>
    intro s
    exact stateExtends_trans (hf s x) (ih (f s x))

theorem processTheorem_extends (l2i : List (LStr × LStr)) (tpos : List (LStr × Nat))
    (s : DepState) (p : Nat) : StateExtends s (processTheorem l2i tpos s p) :=
  foldl_extends _ (fun s' r => processRef_extends l2i tpos p s' r) _ s

/-- Membership consequences of `StateExtends`. -/
theorem stateExtends_mem {s s' : DepState} (h : StateExtends s s') :
    (∀ j x, x ∈ (s.recs.getD j default).dependencies →
        x ∈ (s'.recs.getD j default).dependencies) ∧
    (∀ j x, x ∈ (s.recs.getD j default).dependents →
        x ∈ (s'.recs.getD j default).dependents) ∧
    (∀ k x, x ∈ (lookupAssoc k s.fwd).getD [] → x ∈ (lookupAssoc k s'.fwd).getD []) ∧
    (∀ k x, x ∈ (lookupAssoc k s.rev).getD [] → x ∈ (lookupAssoc k s'.rev).getD []) := by
  obtain ⟨hlen, hrec, hf, hv⟩ := h
  refine ⟨?_, ?_, ?_, ?_⟩
  · intro j x hx
    obtain ⟨_, _, ⟨l, hd⟩, _⟩ := hrec j
    rw [hd]
    exact List.mem_append_left _ hx
  · intro j x hx
    obtain ⟨_, _, _, ⟨l, hd⟩⟩ := hrec j
    rw [hd]
    exact List.mem_append_left _ hx
  · intro k x hx
    cases hk : lookupAssoc k s.fwd with
    | none => rw [hk] at hx; simp at hx
    | some l =>
      rw [hk] at hx
      obtain ⟨l', hl'⟩ := hf k l hk
      rw [hl']
      exact List.mem_append_left _ hx
  · intro k x hx
    cases hk : lookupAssoc k s.rev with
    | none => rw [hk] at hx; simp at hx
    | some l =>
      rw [hk] at hx
      obtain ⟨l', hl'⟩ := hv k l hk
      rw [hl']
      exact List.mem_append_left _ hx

/-- What the reference step records when the reference resolves to a distinct
(nonempty) identifier. -/
theorem processRef_adds (l2i : List (LStr × LStr)) (tpos : List (LStr × Nat)) (p : Nat)
    (s : DepState) (r rid : LStr) (q : Nat)
    (hlook : lookupAssoc r l2i = some rid)
    (hne : rid.isEmpty = false)
    (haid : rid ≠ (s.recs.getD p default).id)
    (hfwd : (lookupAssoc ((s.recs.getD p default).id) s.fwd).isSome)
    (hrev : (lookupAssoc rid s.rev).isSome)
    (htpos : lookupAssoc rid tpos = some q)
    (hp : p < s.recs.length) (hq : q < s.recs.length) :
    rid ∈ (lookupAssoc ((s.recs.getD p default).id) (processRef l2i tpos p s r).fwd).getD [] ∧
    (s.recs.getD p default).id ∈ (lookupAssoc rid (processRef l2i tpos p s r).rev).getD [] ∧
    rid ∈ ((processRef l2i tpos p s r).recs.getD p default).dependencies ∧
    (s.recs.getD p default).id ∈ ((processRef l2i tpos p s r).recs.getD q default).dependents := by
  rw [processRef, hlook]
  simp only []
  rw [if_neg (by rw [hne]; simp), if_neg haid, htpos]
  simp only []
  refine ⟨?_, ?_, ?_, ?_⟩
  · rw [lookupAssoc_pushAssoc, if_pos rfl]
    cases hk : lookupAssoc ((s.recs.getD p default).id) s.fwd with
    | none => rw [hk] at hfwd; simp at hfwd
    | some l => simp
  · rw [lookupAssoc_pushAssoc, if_pos rfl]
    cases hk : lookupAssoc rid s.rev with
    | none => rw [hk] at hrev; simp at hrev
    | some l => simp
  · rw [modIdx_getD]
    by_cases hpq : p = q
    · rw [if_pos ⟨hpq, by rw [modIdx_length]; exact hq⟩]
      simp only []
      rw [modIdx_getD, if_pos ⟨rfl, hp⟩]
      simp
    · rw [if_neg (fun hcontra => hpq hcontra.1)]
      rw [modIdx_getD, if_pos ⟨rfl, hp⟩]
      simp
  · rw [modIdx_getD, if_pos ⟨rfl, by rw [modIdx_length]; exact hq⟩]
    simp

/-- Positions decompose the outer dependency loop at `p`. -/
theorem range'_split : ∀ (n p s : Nat), p < n →
    List.range' s n = List.range' s p ++ (s + p) :: List.range' (s + p + 1) (n - p - 1) := by
  intro n
  induction n with
  | zero => intro p s h; omega
  | succ m ih =>
    intro p s h
    cases p with
    | zero => simp [List.range'_succ]
    | succ p' =>
      have h1 : m + 1 - (p' + 1) - 1 = m - p' - 1 := by omega
      have h2 : s + (p' + 1) = s + 1 + p' := by omega
      rw [h1, h2, List.range'_succ, List.range'_succ, ih p' (s + 1) (by omega),
        List.cons_append]

theorem stateExtends_isSome_fwd {s s' : DepState} (h : StateExtends s s') (k : LStr)
    (hk : (lookupAssoc k s.fwd).isSome) : (lookupAssoc k s'.fwd).isSome := by
  cases hl : lookupAssoc k s.fwd with
  | none => rw [hl] at hk; simp at hk
  | some l =>
    obtain ⟨l', hl'⟩ := h.2.2.1 k l hl
    rw [hl']
    rfl

theorem stateExtends_isSome_rev {s s' : DepState} (h : StateExtends s s') (k : LStr)
    (hk : (lookupAssoc k s.rev).isSome) : (lookupAssoc k s'.rev).isSome := by
  cases hl : lookupAssoc k s.rev with
  | none => rw [hl] at hk; simp at hk
  | some l =>
    obtain ⟨l', hl'⟩ := h.2.2.2 k l hl
    rw [hl']
    rfl

/-- C2: with dependency building enabled, for every block `A` (at position
`p`) and every reference `r` of `A` that the final label map resolves to an
identifier `rid` distinct from `A`'s own (and nonempty — every identifier the
engine generates is; the loop's truthiness check demands it), `buildIndex`
records the edge in the forward graph at `A.id`, the reverse edge at `rid`,
appends `rid` to `A`'s `dependencies`, and appends `A.id` to the
`dependents` of the block the identifier map holds for `rid`; a reference
that does not resolve, or resolves to the block itself, leaves the loop
state exactly unchanged (and no error is possible — the loop is total). -/
theorem claim_C2_buildIndex_edges (ts : List IndexedTheorem) (p : Nat) (r rid : LStr)
    (hp : p < ts.length)
    (hr : r ∈ (ts.getD p default).references)
    (hid : lookupAssoc r (buildIndex ts true).1.labelToId = some rid)
    (hne : rid.isEmpty = false)
    (hself : rid ≠ (ts.getD p default).id) :
    rid ∈ (lookupAssoc ((ts.getD p default).id) (buildIndex ts true).1.dependencyGraph).getD [] ∧
    (ts.getD p default).id ∈
      (lookupAssoc rid (buildIndex ts true).1.reverseDependencyGraph).getD [] ∧
    rid ∈ (((buildIndex ts true).2.getD p default)).dependencies ∧
    (∃ q, lookupAssoc rid (buildIndex ts true).1.theoremsPos = some q ∧ q < ts.length ∧
      (ts.getD q default).id = rid ∧
      (ts.getD p default).id ∈ (((buildIndex ts true).2.getD q default)).dependents) ∧
    (∀ (s : DepState) (p' : Nat) (r' : LStr),
      (lookupAssoc r' (buildIndex ts true).1.labelToId = none ∨
        lookupAssoc r' (buildIndex ts true).1.labelToId =
          some ((s.recs.getD p' default).id)) →
      processRef (buildIndex ts true).1.labelToId (buildIndex ts true).1.theoremsPos p' s r' = s) := by
  set base := indexBase ts with hbase
  have hl2i : (buildIndex ts true).1.labelToId = base.labelToId := rfl
  have htposE : (buildIndex ts true).1.theoremsPos = base.theoremsPos := rfl
  set l2i := base.labelToId with hl2idef
  set tpos := base.theoremsPos with htposdef
  set s0 : DepState :=
    { recs := ts, fwd := base.dependencyGraph, rev := base.reverseDependencyGraph } with hs0
  set sfin := (List.range ts.length).foldl (processTheorem l2i tpos) s0 with hsfin
  have hfwdE : (buildIndex ts true).1.dependencyGraph = sfin.fwd := rfl
  have hrevE : (buildIndex ts true).1.reverseDependencyGraph = sfin.rev := rfl
  have hrecsE : (buildIndex ts true).2 = sfin.recs := rfl
  -- normalize the hypothesis and component views
  rw [hl2i] at hid
  have hlab : l2i = labGo [] ts := by
    rw [hl2idef, hbase, indexBase, indexBaseGo_labelToId]
  have hposv : tpos = posGo [] 0 ts := by
    rw [htposdef, hbase, indexBase, indexBaseGo_theoremsPos]
  have hdepv : base.dependencyGraph = depGo [] ts := by
    rw [hbase, indexBase, indexBaseGo_depGraph]
  have hrevv : base.reverseDependencyGraph = depGo [] ts := by
    rw [hbase, indexBase, indexBaseGo_revGraph]
  -- rid is the identifier of some record
  have hmem : ∃ j, j < ts.length ∧ (ts.getD j default).id = rid := by
    rw [hlab] at hid
    rcases labGo_values r rid ts [] hid with ⟨j, hj, hjid, _⟩ | habs
    · exact ⟨j, hj, hjid⟩
    · simp [lookupAssoc] at habs
  obtain ⟨j0, hj0, hj0id⟩ := hmem
  -- the identifier map resolves rid to a valid position q
  have htq : ∃ q, lookupAssoc rid tpos = some q ∧ q < ts.length ∧
      (ts.getD q default).id = rid := by
    rw [hposv, lookup_posGo]
    cases hw : lastIdWrite 0 ts rid with
    | none =>
      have := lastIdWrite_isSome_of_mem ts 0 j0 rid hj0 hj0id
      rw [hw] at this
      simp at this
    | some w =>
      obtain ⟨_, hw2, hw3, _⟩ := lastIdWrite_sound ts 0 rid w hw
      rw [Nat.sub_zero] at hw2 hw3
      exact ⟨w, rfl, hw2, hw3⟩
  obtain ⟨q, htposq, hqlt, hqid⟩ := htq
  -- split the outer loop at position p
  have hn : ts.length - p - 1 + 1 + p = ts.length := by omega
  have hsplit : List.range ts.length =
      List.range' 0 p ++ p :: List.range' (p + 1) (ts.length - p - 1) := by
    rw [List.range_eq_range', range'_split ts.length p 0 hp]
    simp
  set s_pre := (List.range' 0 p).foldl (processTheorem l2i tpos) s0 with hspre
  have hext1 : StateExtends s0 s_pre :=
    foldl_extends _ (fun s x => processTheorem_extends l2i tpos s x) _ s0
  have hfold1 : sfin = (List.range' (p + 1) (ts.length - p - 1)).foldl
      (processTheorem l2i tpos) (processTheorem l2i tpos s_pre p) := by
    rw [hsfin, hsplit, List.foldl_append]
    rfl
  -- the references of the record at p are unchanged by the earlier steps
  have hrefs : (s_pre.recs.getD p default).references = (ts.getD p default).references :=
    (hext1.2.1 p).2.1
  have hids : (s_pre.recs.getD p default).id = (ts.getD p default).id :=
    (hext1.2.1 p).1
  have hlen1 : s_pre.recs.length = ts.length := hext1.1
  -- split the reference loop at r
  have hrmem : r ∈ (s_pre.recs.getD p default).references := by rw [hrefs]; exact hr
  obtain ⟨la, lb, hlalb⟩ := List.append_of_mem hrmem
  set s_at := la.foldl (processRef l2i tpos p) s_pre with hsat
  have hext2 : StateExtends s_pre s_at :=
    foldl_extends _ (fun s x => processRef_extends l2i tpos p s x) _ s_pre
  have hext02 : StateExtends s0 s_at := stateExtends_trans hext1 hext2
  have hfold2 : processTheorem l2i tpos s_pre p =
      lb.foldl (processRef l2i tpos p) (processRef l2i tpos p s_at r) := by
    rw [processTheorem, hlalb, List.foldl_append]
    rfl
  have hidat : (s_at.recs.getD p default).id = (ts.getD p default).id :=
    (hext02.2.1 p).1
  have hlenat : s_at.recs.length = ts.length := hext02.1
  -- the step hypotheses at the moment r is processed
  have hfwd0 : (lookupAssoc ((ts.getD p default).id) s0.fwd).isSome := by
    show (lookupAssoc ((ts.getD p default).id) base.dependencyGraph).isSome
    rw [hdepv]
    exact depGo_isSome _ ts [] (Or.inl ⟨p, hp, rfl⟩)
  have hrev0 : (lookupAssoc rid s0.rev).isSome := by
    show (lookupAssoc rid base.reverseDependencyGraph).isSome
    rw [hrevv]
    exact depGo_isSome _ ts [] (Or.inl ⟨j0, hj0, hj0id⟩)
  have hadds := processRef_adds l2i tpos p s_at r rid q hid hne
    (by rw [hidat]; exact hself)
    (by rw [hidat]; exact stateExtends_isSome_fwd hext02 _ hfwd0)
    (stateExtends_isSome_rev hext02 _ hrev0)
    htposq (by rw [hlenat]; exact hp) (by rw [hlenat]; exact hqlt)
  rw [hidat] at hadds
  obtain ⟨ha1, ha2, ha3, ha4⟩ := hadds
  -- everything recorded at that step survives to the end of the loop
  have hext3 : StateExtends (processRef l2i tpos p s_at r) sfin := by
    rw [hfold1, hfold2]
    exact stateExtends_trans
      (foldl_extends _ (fun s x => processRef_extends l2i tpos p s x) _ _)
      (foldl_extends _ (fun s x => processTheorem_extends l2i tpos s x) _ _)
  obtain ⟨hm1, hm2, hm3, hm4⟩ := stateExtends_mem hext3
  refine ⟨?_, ?_, ?_, ⟨q, ?_, hqlt, hqid, ?_⟩, ?_⟩
  · rw [hfwdE]; exact hm3 _ _ ha1
  · rw [hrevE]; exact hm4 _ _ ha2
  · rw [hrecsE]; exact hm1 _ _ ha3
  · rw [htposE]; exact htposq
  · rw [hrecsE]; exact hm2 _ _ ha4
  · intro s p' r' hdrop
    rw [hl2i, htposE]
    unfold processRef
    rcases hdrop with hnone | hsame
    · rw [hl2i] at hnone
      rw [hnone]
    · rw [hl2i] at hsame
      rw [hsame]
      simp only []
      by_cases he : ((s.recs.getD p' default).id).isEmpty
      · rw [if_pos he]
      · rw [if_neg he]
        simp

/-- Witness for C2 at the two-block document where the lemma's body
references the theorem through its label. -/
theorem claim_C2_buildIndex_edges_witness :
    (1 < depWitnessBlocks.length ∧
      "t1".toList ∈ (depWitnessBlocks.getD 1 default).references ∧
      lookupAssoc ("t1".toList) (buildIndex depWitnessBlocks true).1.labelToId =
        some ("t1".toList) ∧
      ("t1".toList).isEmpty = false ∧
      "t1".toList ≠ (depWitnessBlocks.getD 1 default).id) ∧
    "t1".toList ∈ (lookupAssoc ((depWitnessBlocks.getD 1 default).id)
      (buildIndex depWitnessBlocks true).1.dependencyGraph).getD [] := by
  refine ⟨⟨by decide, by decide, by decide, by decide, by decide⟩, ?_⟩
  exact (claim_C2_buildIndex_edges depWitnessBlocks 1 ("t1".toList) ("t1".toList)
    (by decide) (by decide) (by decide) (by decide) (by decide)).1

/-- C6, amended: when two blocks (positions `p < q`) carry the same nonempty
label `L`, no error is raised (index building is total), the label map entry
for `L` holds `L` itself — the identifier both blocks produce, since
`generateTheoremId` prefers the label — and the identifier→Block map holds
the later block: it maps `L` to position `q`, and the earlier block is
reachable under no key at all (it does not remain under a kind/ordinal
identifier, and identifier uniqueness fails). -/
theorem claim_C6_amended (ts : List IndexedTheorem) (b : Bool) (L : LStr) (p q : Nat)
    (hpq : p < q) (hq : q < ts.length)
    (hlq : (ts.getD q default).label = some L)
    (hne : L.isEmpty = false)
    (hip : (ts.getD p default).id = L)
    (hiq : (ts.getD q default).id = L)
    (hlast : ∀ j, q < j → j < ts.length → (ts.getD j default).id ≠ L)
    (hwriters : ∀ j, j < ts.length → (ts.getD j default).label = some L →
      (ts.getD j default).id = L) :
    lookupAssoc L (buildIndex ts b).1.labelToId = some L ∧
    lookupAssoc L (buildIndex ts b).1.theoremsPos = some q ∧
    (∀ k, lookupAssoc k (buildIndex ts b).1.theoremsPos ≠ some p) := by
  have hlabE : (buildIndex ts b).1.labelToId = labGo [] ts := by
    cases b <;> (show (indexBase ts).labelToId = _; rw [indexBase, indexBaseGo_labelToId])
  have hposE : (buildIndex ts b).1.theoremsPos = posGo [] 0 ts := by
    cases b <;> (show (indexBase ts).theoremsPos = _; rw [indexBase, indexBaseGo_theoremsPos])
  refine ⟨?_, ?_, ?_⟩
  · rw [hlabE]
    have hsome := labGo_isSome L ts [] ⟨q, hq, hlq, hne⟩
    cases hv : lookupAssoc L (labGo [] ts) with
    | none => rw [hv] at hsome; simp at hsome
    | some v =>
      rcases labGo_values L v ts [] hv with ⟨j, hj, hjid, hjlab⟩ | habs
      · rw [hwriters j hj hjlab] at hjid
        rw [← hjid]
      · simp [lookupAssoc] at habs
  · rw [hposE, lookup_posGo, lastIdWrite_complete ts 0 q L hq hiq hlast]
    simp
  · intro k
    rw [hposE, lookup_posGo]
    cases hw : lastIdWrite 0 ts k with
    | none => simp [lookupAssoc]
    | some w =>
      simp only []
      intro hcontra
      injection hcontra with hcontra
      obtain ⟨_, hw2, hw3, hw4⟩ := lastIdWrite_sound ts 0 k w hw
      rw [Nat.sub_zero] at hw3 hw4
      rw [hcontra] at hw3 hw4
      have hkL : k = L := hw3.symm.trans hip
      rw [hkL] at hw4
      exact hw4 q hpq hq hiq

/-- Witness for C6 (amended) at the concrete duplicate-label document. -/
theorem claim_C6_amended_witness :
    (0 < 1 ∧ 1 < dupLabelBlocks.length ∧
      (dupLabelBlocks.getD 1 default).label = some ("L".toList) ∧
      (dupLabelBlocks.getD 0 default).id = "L".toList ∧
      (dupLabelBlocks.getD 1 default).id = "L".toList) ∧
    lookupAssoc ("L".toList) (buildIndex dupLabelBlocks true).1.labelToId =
      some ("L".toList) ∧
    lookupAssoc ("L".toList) (buildIndex dupLabelBlocks true).1.theoremsPos = some 1 := by
  refine ⟨⟨by decide, by decide, by decide, by decide, by decide⟩, ?_, ?_⟩
  · exact (claim_C6_amended dupLabelBlocks true ("L".toList) 0 1 (by decide) (by decide)
      (by decide) (by decide) (by decide) (by decide)
      (by intro j h1 h2
          have hlen2 : dupLabelBlocks.length = 2 := by decide
          omega)
      (by intro j hj hlab
          have hlen2 : dupLabelBlocks.length = 2 := by decide
          rw [hlen2] at hj
          interval_cases j <;> revert hlab <;> decide)).1
  · exact (claim_C6_amended dupLabelBlocks true ("L".toList) 0 1 (by decide) (by decide)
      (by decide) (by decide) (by decide) (by decide)
      (by intro j h1 h2
          have hlen2 : dupLabelBlocks.length = 2 := by decide
          omega)
      (by intro j hj hlab
          have hlen2 : dupLabelBlocks.length = 2 := by decide
          rw [hlen2] at hj
          interval_cases j <;> revert hlab <;> decide)).2.1

/-! ### Positional views of the two scanning surfaces (claim C7) -/

theorem zip_map_getD {α β γ : Type} (f : α × β → γ) (dA : α) (dB : β) (dC : γ) :
    ∀ (os : List α) (cs : List β) (i : Nat), i < os.length → i < cs.length →
      ((os.zip cs).map f).getD i dC = f (os.getD i dA, cs.getD i dB) := by
  intro os
  induction os with
  | nil => intro cs i h _; simp at h
  | cons o os ih =>
    intro cs i h1 h2
    cases cs with
    | nil => simp at h2
    | cons c cs =>
      cases i with
      | zero => rfl
      | succ i' =>
        simp only [List.zip_cons_cons, List.map_cons, List.getD_cons_succ]
        exact ih cs i' (by simpa using h1) (by simpa using h2)

theorem zip_getD {α β : Type} (dA : α) (dB : β) :
    ∀ (os : List α) (cs : List β) (i : Nat), i < os.length → i < cs.length →
      (os.zip cs).getD i (dA, dB) = (os.getD i dA, cs.getD i dB) := by
  intro os
  induction os with
  | nil => intro cs i h _; simp at h
  | cons o os ih =>
    intro cs i h1 h2
    cases cs with
    | nil => simp at h2
    | cons c cs =>
      cases i with
      | zero => rfl
      | succ i' =>
        simp only [List.zip_cons_cons, List.getD_cons_succ]
        exact ih cs i' (by simpa using h1) (by simpa using h2)

theorem enumFrom_map_getD {α γ : Type} (f : Nat × α → γ) (dB : α) (dC : γ) :
    ∀ (l : List α) (n i : Nat), i < l.length →
      ((List.enumFrom n l).map f).getD i dC = f (n + i, l.getD i dB) := by
  intro l
  induction l with
  | nil => intro n i h; simp at h
  | cons x xs ih =>
    intro n i h
    cases i with
    | zero => simp [List.enumFrom]
    | succ i' =>
      simp only [List.enumFrom, List.map_cons, List.getD_cons_succ]
      rw [ih (n + 1) i' (by simpa using h)]
      congr 2
      omega

/-- C7, amended: under the C1 well-formedness alignment, for the `i`-th block
of the proof-lookup surface (`GetProofTool.extractAllTheorems`) the label is
the opening delimiter's brace-group label when that is nonempty, and
otherwise the argument of the first `\label{...}` command in the block's raw
text; the indexing surface (`TheoremIndexerTool`, and
`TheoremExtractorTool`, which builds its records identically) instead keeps
exactly the opening delimiter's label, with no body fallback. -/
theorem claim_C7_amended (content path : LStr) (kinds : List LStr) (er es : Bool) (i : Nat)
    (hA : alignedTypes (scanOpens kinds content) (scanCloses content) = true)
    (hi : i < (scanCloses content).length) :
    (((scanOpens kinds content).getD i default).label = none →
      ((extractAllTheorems content path kinds).getD i default).label =
        firstLabelArg (sliceStr content
          (((scanOpens kinds content).getD i default).startIndex)
          ((((scanCloses content).getD i default).endIndex) +
            (((scanCloses content).getD i default).matchLen)))) ∧
    (∀ l, ((scanOpens kinds content).getD i default).label = some l → l.isEmpty = false →
      ((extractAllTheorems content path kinds).getD i default).label = some l) ∧
    ((indexTheoremsBlocks content path kinds er es).getD i default).label =
      ((scanOpens kinds content).getD i default).label := by
  have hlen := alignedTypes_length _ _ hA
  have hio : i < (scanOpens kinds content).length := by rw [hlen]; exact hi
  have hget : (extractAllTheorems content path kinds).getD i default =
      mkProofBlock content path
        ((scanOpens kinds content).getD i default, (scanCloses content).getD i default) := by
    rw [extractAllTheorems, matchEnvs_aligned _ _ hA]
    exact zip_map_getD _ default default default _ _ i hio hi
  have hgeti : (indexTheoremsBlocks content path kinds er es).getD i default =
      mkIndexedTheorem content path er es i
        ((scanOpens kinds content).getD i default, (scanCloses content).getD i default) := by
    rw [indexTheoremsBlocks, matchEnvs_aligned _ _ hA, List.enum]
    have hz : i < ((scanOpens kinds content).zip (scanCloses content)).length := by
      rw [List.length_zip, hlen, Nat.min_self]; exact hi
    rw [enumFrom_map_getD (fun pr => mkIndexedTheorem content path er es pr.1 pr.2)
      (default, default) default _ 0 i hz]
    rw [zip_getD default default _ _ i hio hi]
    simp
  refine ⟨?_, ?_, ?_⟩
  · intro hnone
    rw [hget, mkProofBlock, hnone]
  · intro l hsome hne
    rw [hget, mkProofBlock, hsome]
    simp only []
    rw [if_neg (by rw [hne]; simp)]
  · rw [hgeti]
    rfl

/-- Witness for C7 (amended) at the concrete body-label document. -/
theorem claim_C7_amended_witness :
    (alignedTypes (scanOpens defaultProofSearchTypes bodyLabelDoc)
        (scanCloses bodyLabelDoc) = true) ∧
    ((scanOpens defaultProofSearchTypes bodyLabelDoc).getD 0 default).label = none ∧
    ((extractAllTheorems bodyLabelDoc ("doc.tex".toList) defaultProofSearchTypes).getD 0
      default).label =
      firstLabelArg (sliceStr bodyLabelDoc
        (((scanOpens defaultProofSearchTypes bodyLabelDoc).getD 0 default).startIndex)
        ((((scanCloses bodyLabelDoc).getD 0 default).endIndex) +
          (((scanCloses bodyLabelDoc).getD 0 default).matchLen))) := by
  refine ⟨by decide, by decide, ?_⟩
  exact (claim_C7_amended bodyLabelDoc ("doc.tex".toList) defaultProofSearchTypes true true 0
    (by decide) (by decide)).1 (by decide)

end Spec2Proof
